import Mathlib

/-!
# Verification of the svelte URL parameterizer core

A shallow embedding, in Lean 4, of the synchronization engine of the
`svelte-url-parameterizer` repository: the debounce scheduler
(`src/debounce`, `MappedDebouncer`), the handler resolver (`verbosify`
and `defaults`), the URL change bus (`URLChangeEvent`), the key
registry / write cache (`globals`), and the binding engine
(`setupEffect`, `dispose`, `updatePrefix`, `tryProcessHistoricalKeys`)
from `src/utils.ts`.

Browser / ECMAScript primitives that the source calls (URLSearchParams,
`encodeURIComponent` / `decodeURIComponent`, `JSON.stringify` /
`JSON.parse`, timers) are modelled executably from their standard
semantics:

* strings are Lean strings (sequences of unicode scalar values; JS lone
  surrogates are outside the model),
* JSON numbers are modelled as exact integers (IEEE-754 doubles are
  outside the shallow embedding; within the JS safe-integer range the
  model agrees with the platform),
* `JSON.parse` is modelled on whitespace-free JSON texts, which covers
  every text produced by `JSON.stringify`,
* timers are modelled by a timed trace semantics with explicit absolute
  deadlines.
-/

namespace SUP

/-! ## Characters, hex digits and UTF-8 bytes -/

theorem char_valid_nat (c : Char) :
    c.toNat < 0xD800 ∨ (0xE000 ≤ c.toNat ∧ c.toNat < 0x110000) := by
  rcases c.valid with h | ⟨h1, h2⟩
  · left
    exact_mod_cast h
  · right
    constructor <;> exact_mod_cast ‹_›

/-- UTF-8 encoding of a unicode scalar value, as a list of byte
values. -/
def utf8Bytes (c : Char) : List Nat :=
  if c.toNat < 0x80 then [c.toNat]
  else if c.toNat < 0x800 then [0xC0 + c.toNat / 64, 0x80 + c.toNat % 64]
  else if c.toNat < 0x10000 then
    [0xE0 + c.toNat / 4096, 0x80 + c.toNat / 64 % 64, 0x80 + c.toNat % 64]
  else
    [0xF0 + c.toNat / 0x40000, 0x80 + c.toNat / 4096 % 64,
     0x80 + c.toNat / 64 % 64, 0x80 + c.toNat % 64]

theorem utf8Bytes_lt (c : Char) : ∀ b ∈ utf8Bytes c, b < 256 := by
  intro b hb
  have hv : c.toNat < 0x110000 := by
    rcases char_valid_nat c with h | ⟨_, h⟩ <;> omega
  unfold utf8Bytes at hb
  repeat' split at hb
  all_goals simp only [List.mem_cons, List.mem_singleton,
    List.not_mem_nil, or_false] at hb
  all_goals omega

/-- Lowercase hex digit for a value below 16 (as emitted by JS
`QuoteJSONString` in `\u00xx` escapes). -/
def hexDigitLower (n : Nat) : Char :=
  if n < 10 then Char.ofNat (48 + n) else Char.ofNat (87 + n)

/-- Uppercase hex digit for a value below 16 (as emitted by
`encodeURIComponent` and the form-urlencoded serializer). -/
def hexDigitUpper (n : Nat) : Char :=
  if n < 10 then Char.ofNat (48 + n) else Char.ofNat (55 + n)

/-- Numeric value of a hex digit character (either case), if any. -/
def hexVal (c : Char) : Option Nat :=
  if 48 ≤ c.toNat ∧ c.toNat ≤ 57 then some (c.toNat - 48)
  else if 97 ≤ c.toNat ∧ c.toNat ≤ 102 then some (c.toNat - 87)
  else if 65 ≤ c.toNat ∧ c.toNat ≤ 70 then some (c.toNat - 55)
  else none

theorem hexVal_hexDigitUpper {n : Nat} (h : n < 16) :
    hexVal (hexDigitUpper n) = some n := by
  interval_cases n <;> decide

theorem hexVal_hexDigitLower {n : Nat} (h : n < 16) :
    hexVal (hexDigitLower n) = some n := by
  interval_cases n <;> decide

/-- The two-hex-digit value of an escape `%XY`. -/
def pctHex (h1 h2 : Char) : Option Nat :=
  match hexVal h1, hexVal h2 with
  | some a, some b => some (16 * a + b)
  | _, _ => none

theorem pctHex_upper {b : Nat} (h : b < 256) :
    pctHex (hexDigitUpper (b / 16)) (hexDigitUpper (b % 16)) = some b := by
  unfold pctHex
  rw [hexVal_hexDigitUpper (by omega), hexVal_hexDigitUpper (by omega)]
  simp only [Option.some.injEq]
  omega

/-- The `%XY` percent escape of a byte, uppercase hex. -/
def pctByte (b : Nat) : List Char :=
  ['%', hexDigitUpper (b / 16), hexDigitUpper (b % 16)]

/-! ## Strict and lossy UTF-8 decoding

`decodeURIComponent` (ECMAScript `Decode`) rejects invalid encodings;
the `application/x-www-form-urlencoded` parser behind `URLSearchParams`
replaces them with U+FFFD.  Both are driven by one step function that
decodes a single UTF-8 sequence. -/

/-- The replacement character U+FFFD. -/
def replacementChar : Char := Char.ofNat 0xFFFD

/-- Is `b` a UTF-8 continuation byte? -/
def isCont (b : Nat) : Bool := 0x80 ≤ b ∧ b < 0xC0

def utf8Step2 (b : Nat) : List Nat → Option Char × List Nat
  | b2 :: rest2 =>
    if isCont b2 then
      (some (Char.ofNat ((b - 0xC0) * 64 + (b2 - 0x80))), rest2)
    else (none, b2 :: rest2)
  | [] => (none, [])

def utf8Step3 (b : Nat) : List Nat → Option Char × List Nat
  | b2 :: b3 :: rest3 =>
    if isCont b2 ∧ isCont b3 then
      if 0x800 ≤ (b - 0xE0) * 4096 + (b2 - 0x80) * 64 + (b3 - 0x80) ∧
          ¬(0xD800 ≤ (b - 0xE0) * 4096 + (b2 - 0x80) * 64 + (b3 - 0x80) ∧
            (b - 0xE0) * 4096 + (b2 - 0x80) * 64 + (b3 - 0x80) < 0xE000) then
        (some (Char.ofNat ((b - 0xE0) * 4096 + (b2 - 0x80) * 64 +
          (b3 - 0x80))), rest3)
      else (none, b2 :: b3 :: rest3)
    else (none, b2 :: b3 :: rest3)
  | rest => (none, rest)

def utf8Step4 (b : Nat) : List Nat → Option Char × List Nat
  | b2 :: b3 :: b4 :: rest4 =>
    if isCont b2 ∧ isCont b3 ∧ isCont b4 then
      if 0x10000 ≤ (b - 0xF0) * 0x40000 + (b2 - 0x80) * 4096 +
            (b3 - 0x80) * 64 + (b4 - 0x80) ∧
          (b - 0xF0) * 0x40000 + (b2 - 0x80) * 4096 + (b3 - 0x80) * 64 +
            (b4 - 0x80) < 0x110000 then
        (some (Char.ofNat ((b - 0xF0) * 0x40000 + (b2 - 0x80) * 4096 +
          (b3 - 0x80) * 64 + (b4 - 0x80))), rest4)
      else (none, b2 :: b3 :: b4 :: rest4)
    else (none, b2 :: b3 :: b4 :: rest4)
  | rest => (none, rest)

/-- Decode one UTF-8 sequence from the front of a byte list (first byte
passed separately): `(some c, rem)` on success, `(none, rem)` on a
malformed sequence. -/
def utf8Step (b : Nat) (rest : List Nat) : Option Char × List Nat :=
  if b < 0x80 then (some (Char.ofNat b), rest)
  else if b < 0xC2 then (none, rest)
  else if b < 0xE0 then utf8Step2 b rest
  else if b < 0xF0 then utf8Step3 b rest
  else if b < 0xF5 then utf8Step4 b rest
  else (none, rest)

theorem utf8Step2_len (b : Nat) (rest : List Nat) :
    (utf8Step2 b rest).2.length ≤ rest.length := by
  unfold utf8Step2
  repeat' split
  all_goals simp

theorem utf8Step3_len (b : Nat) (rest : List Nat) :
    (utf8Step3 b rest).2.length ≤ rest.length := by
  unfold utf8Step3
  repeat' split
  all_goals simp
  all_goals omega

theorem utf8Step4_len (b : Nat) (rest : List Nat) :
    (utf8Step4 b rest).2.length ≤ rest.length := by
  unfold utf8Step4
  repeat' split
  all_goals simp
  all_goals omega

theorem utf8Step_len (b : Nat) (rest : List Nat) :
    (utf8Step b rest).2.length ≤ rest.length := by
  unfold utf8Step
  repeat' split
  all_goals
    first
    | simp
    | exact utf8Step2_len b rest
    | exact utf8Step3_len b rest
    | exact utf8Step4_len b rest

/-- Total UTF-8 decoder (WHATWG-style, replacement character on
error). -/
def utf8Decode : List Nat → List Char
  | [] => []
  | b :: rest =>
    (utf8Step b rest).1.getD replacementChar :: utf8Decode (utf8Step b rest).2
termination_by bs => bs.length
decreasing_by
  simp only [List.length_cons]
  exact Nat.lt_succ_of_le (utf8Step_len b rest)

/-- Strict UTF-8 decoder (ECMAScript-style, fails on error). -/
def utf8DecodeStrict : List Nat → Option (List Char)
  | [] => some []
  | b :: rest =>
    match (utf8Step b rest).1 with
    | some c => (utf8DecodeStrict (utf8Step b rest).2).map (c :: ·)
    | none => none
termination_by bs => bs.length
decreasing_by
  simp only [List.length_cons]
  exact Nat.lt_succ_of_le (utf8Step_len b rest)

theorem utf8Step_utf8Bytes (c : Char) (bs : List Nat) :
    ∃ b rest, utf8Bytes c ++ bs = b :: rest ∧
      utf8Step b rest = (some c, bs) := by
  have hval := char_valid_nat c
  have hofNat := Char.ofNat_toNat c
  unfold utf8Bytes
  rcases Nat.lt_or_ge c.toNat 0x80 with h1 | h1
  · refine ⟨c.toNat, bs, by rw [if_pos h1]; rfl, ?_⟩
    unfold utf8Step
    rw [if_pos h1, hofNat]
  · rcases Nat.lt_or_ge c.toNat 0x800 with h2 | h2
    · refine ⟨0xC0 + c.toNat / 64, (0x80 + c.toNat % 64) :: bs,
        by rw [if_neg (by omega), if_pos h2]; rfl, ?_⟩
      unfold utf8Step
      rw [if_neg (by omega), if_neg (by omega), if_pos (by omega)]
      simp only [utf8Step2]
      rw [if_pos (by simp only [isCont, decide_eq_true_eq]; omega)]
      have : (0xC0 + c.toNat / 64 - 0xC0) * 64 +
          (0x80 + c.toNat % 64 - 0x80) = c.toNat := by omega
      rw [this, hofNat]
    · rcases Nat.lt_or_ge c.toNat 0x10000 with h3 | h3
      · have hs : ¬ (0xD800 ≤ c.toNat ∧ c.toNat < 0xE000) := by
          rcases hval with h | h <;> omega
        refine ⟨0xE0 + c.toNat / 4096,
          (0x80 + c.toNat / 64 % 64) :: (0x80 + c.toNat % 64) :: bs,
          by rw [if_neg (by omega), if_neg (by omega), if_pos h3]; rfl, ?_⟩
        unfold utf8Step
        rw [if_neg (by omega), if_neg (by omega), if_neg (by omega),
          if_pos (by omega)]
        simp only [utf8Step3]
        rw [if_pos (by
          constructor <;> simp only [isCont, decide_eq_true_eq] <;> omega)]
        have harith : (0xE0 + c.toNat / 4096 - 0xE0) * 4096 +
            (0x80 + c.toNat / 64 % 64 - 0x80) * 64 +
            (0x80 + c.toNat % 64 - 0x80) = c.toNat := by omega
        rw [harith, if_pos (by exact ⟨h2, hs⟩), hofNat]
      · have h4 : c.toNat < 0x110000 := by omega
        refine ⟨0xF0 + c.toNat / 0x40000,
          (0x80 + c.toNat / 4096 % 64) :: (0x80 + c.toNat / 64 % 64) ::
            (0x80 + c.toNat % 64) :: bs,
          by rw [if_neg (by omega), if_neg (by omega),
            if_neg (by omega)]; rfl, ?_⟩
        unfold utf8Step
        rw [if_neg (by omega), if_neg (by omega), if_neg (by omega),
          if_neg (by omega), if_pos (by omega)]
        simp only [utf8Step4]
        rw [if_pos (by
          refine ⟨?_, ?_, ?_⟩ <;>
            simp only [isCont, decide_eq_true_eq] <;> omega)]
        have harith : (0xF0 + c.toNat / 0x40000 - 0xF0) * 0x40000 +
            (0x80 + c.toNat / 4096 % 64 - 0x80) * 4096 +
            (0x80 + c.toNat / 64 % 64 - 0x80) * 64 +
            (0x80 + c.toNat % 64 - 0x80) = c.toNat := by omega
        rw [harith, if_pos (by exact ⟨h3, h4⟩), hofNat]

theorem utf8Decode_utf8Bytes (c : Char) (bs : List Nat) :
    utf8Decode (utf8Bytes c ++ bs) = c :: utf8Decode bs := by
  obtain ⟨b, rest, heq, hstep⟩ := utf8Step_utf8Bytes c bs
  rw [heq, utf8Decode, hstep]
  rfl

theorem utf8DecodeStrict_utf8Bytes (c : Char) (bs : List Nat) :
    utf8DecodeStrict (utf8Bytes c ++ bs) =
      (utf8DecodeStrict bs).map (c :: ·) := by
  obtain ⟨b, rest, heq, hstep⟩ := utf8Step_utf8Bytes c bs
  rw [heq, utf8DecodeStrict, hstep]

theorem utf8Decode_flat (cs : List Char) :
    utf8Decode (cs.flatMap utf8Bytes) = cs := by
  induction cs with
  | nil => simp [utf8Decode]
  | cons c cs ih => rw [List.flatMap_cons, utf8Decode_utf8Bytes, ih]

theorem utf8DecodeStrict_flat (cs : List Char) :
    utf8DecodeStrict (cs.flatMap utf8Bytes) = some cs := by
  induction cs with
  | nil => simp [utf8DecodeStrict]
  | cons c cs ih => rw [List.flatMap_cons, utf8DecodeStrict_utf8Bytes, ih]
                    rfl

/-! ## Percent-decoding to bytes -/

/-- One step of strict percent-decoding (ECMAScript `Decode` stage
one): a `%` must be followed by two hex digits and yields that byte; a
literal character yields its UTF-8 bytes.  The second component is the
remaining input (consumed even on error, keeping the driver total). -/
def pctStepStrict (c : Char) (rest : List Char) :
    Option (List Nat) × List Char :=
  if c = '%' then
    match rest with
    | h1 :: h2 :: rest2 => ((pctHex h1 h2).map ([·]), rest2)
    | _ => (none, rest)
  else (some (utf8Bytes c), rest)

theorem pctStepStrict_len (c : Char) (rest : List Char) :
    (pctStepStrict c rest).2.length ≤ rest.length := by
  unfold pctStepStrict
  repeat' split
  all_goals simp
  all_goals omega

def pctBytesStrict : List Char → Option (List Nat)
  | [] => some []
  | c :: rest =>
    match (pctStepStrict c rest).1 with
    | some bs => (pctBytesStrict (pctStepStrict c rest).2).map (bs ++ ·)
    | none => none
termination_by cs => cs.length
decreasing_by
  simp only [List.length_cons]
  exact Nat.lt_succ_of_le (pctStepStrict_len c rest)

/-- One step of WHATWG (total) percent-decoding with plus-to-space
handling; a malformed escape passes through literally. -/
def pctStepForm (c : Char) (rest : List Char) : List Nat × List Char :=
  if c = '%' then
    match rest with
    | h1 :: h2 :: rest2 =>
      match pctHex h1 h2 with
      | some b => ([b], rest2)
      | none => ([37], rest)
    | _ => ([37], rest)
  else if c = '+' then ([32], rest)
  else (utf8Bytes c, rest)

theorem pctStepForm_len (c : Char) (rest : List Char) :
    (pctStepForm c rest).2.length ≤ rest.length := by
  unfold pctStepForm
  repeat' split
  all_goals simp
  all_goals omega

def pctBytesForm : List Char → List Nat
  | [] => []
  | c :: rest =>
    (pctStepForm c rest).1 ++ pctBytesForm (pctStepForm c rest).2
termination_by cs => cs.length
decreasing_by
  simp only [List.length_cons]
  exact Nat.lt_succ_of_le (pctStepForm_len c rest)

theorem pctBytesStrict_pctByte {b : Nat} (hb : b < 256) (rest : List Char) :
    pctBytesStrict (pctByte b ++ rest) =
      (pctBytesStrict rest).map ([b] ++ ·) := by
  have hstep : pctStepStrict '%'
      (hexDigitUpper (b / 16) :: hexDigitUpper (b % 16) :: rest) =
      (some [b], rest) := by
    unfold pctStepStrict
    rw [if_pos rfl]
    simp [pctHex_upper hb]
  simp only [pctByte, List.cons_append, List.nil_append]
  rw [pctBytesStrict, hstep]
  simp

theorem pctBytesStrict_lit {c : Char} (hc : c ≠ '%') (rest : List Char) :
    pctBytesStrict (c :: rest) =
      (pctBytesStrict rest).map (utf8Bytes c ++ ·) := by
  have hstep : pctStepStrict c rest = (some (utf8Bytes c), rest) := by
    unfold pctStepStrict
    rw [if_neg hc]
  rw [pctBytesStrict, hstep]

theorem pctBytesForm_pctByte {b : Nat} (hb : b < 256) (rest : List Char) :
    pctBytesForm (pctByte b ++ rest) = b :: pctBytesForm rest := by
  have hstep : pctStepForm '%'
      (hexDigitUpper (b / 16) :: hexDigitUpper (b % 16) :: rest) =
      ([b], rest) := by
    unfold pctStepForm
    rw [if_pos rfl]
    simp [pctHex_upper hb]
  simp only [pctByte, List.cons_append, List.nil_append]
  rw [pctBytesForm, hstep]
  rfl

theorem pctBytesForm_lit {c : Char} (hc : c ≠ '%') (hc2 : c ≠ '+')
    (rest : List Char) :
    pctBytesForm (c :: rest) = utf8Bytes c ++ pctBytesForm rest := by
  have hstep : pctStepForm c rest = (utf8Bytes c, rest) := by
    unfold pctStepForm
    rw [if_neg hc, if_neg hc2]
  rw [pctBytesForm, hstep]

theorem pctBytesForm_plus (rest : List Char) :
    pctBytesForm ('+' :: rest) = 32 :: pctBytesForm rest := by
  have hstep : pctStepForm '+' rest = ([32], rest) := by
    unfold pctStepForm
    rw [if_neg (by decide), if_pos rfl]
  rw [pctBytesForm, hstep]
  rfl

theorem pctBytesStrict_pcts {bs : List Nat} (hb : ∀ b ∈ bs, b < 256)
    (rest : List Char) :
    pctBytesStrict (bs.flatMap pctByte ++ rest) =
      (pctBytesStrict rest).map (bs ++ ·) := by
  induction bs with
  | nil => simp
  | cons b bs ih =>
    rw [List.flatMap_cons, List.append_assoc,
      pctBytesStrict_pctByte (hb b (by simp)),
      ih (fun x hx => hb x (by simp [hx]))]
    cases pctBytesStrict rest <;> simp

theorem pctBytesForm_pcts {bs : List Nat} (hb : ∀ b ∈ bs, b < 256)
    (rest : List Char) :
    pctBytesForm (bs.flatMap pctByte ++ rest) = bs ++ pctBytesForm rest := by
  induction bs with
  | nil => simp
  | cons b bs ih =>
    rw [List.flatMap_cons, List.append_assoc,
      pctBytesForm_pctByte (hb b (by simp)),
      ih (fun x hx => hb x (by simp [hx]))]
    rfl

/-! ## `encodeURIComponent` / `decodeURIComponent` and form encoding -/

/-- Characters left literal by `encodeURIComponent` (ECMAScript
`uriUnescaped`): alphanumerics and `- _ . ! ~ * ( )` and the
apostrophe. -/
def uriUnreserved (c : Char) : Bool :=
  (65 ≤ c.toNat ∧ c.toNat ≤ 90) ∨ (97 ≤ c.toNat ∧ c.toNat ≤ 122) ∨
    (48 ≤ c.toNat ∧ c.toNat ≤ 57) ∨ c.toNat = 45 ∨ c.toNat = 95 ∨
    c.toNat = 46 ∨ c.toNat = 33 ∨ c.toNat = 126 ∨ c.toNat = 42 ∨
    c.toNat = 39 ∨ c.toNat = 40 ∨ c.toNat = 41

/-- Model of `encodeURIComponent`. -/
def encodeURIComponentChars (cs : List Char) : List Char :=
  cs.flatMap fun c =>
    if uriUnreserved c then [c] else (utf8Bytes c).flatMap pctByte

/-- Model of `decodeURIComponent` (`none` models a thrown
`URIError`). -/
def decodeURIComponentChars (cs : List Char) : Option (List Char) :=
  (pctBytesStrict cs).bind utf8DecodeStrict

theorem uriUnreserved_ne {c : Char} (h : uriUnreserved c) : c ≠ '%' := by
  intro heq
  subst heq
  exact absurd h (by decide)

theorem decodeURIComponentChars_encode (cs : List Char) :
    decodeURIComponentChars (encodeURIComponentChars cs) = some cs := by
  have key : pctBytesStrict (encodeURIComponentChars cs) =
      some (cs.flatMap utf8Bytes) := by
    induction cs with
    | nil => simp [encodeURIComponentChars, pctBytesStrict]
    | cons c cs ih =>
      rw [encodeURIComponentChars, List.flatMap_cons]
      by_cases hu : uriUnreserved c
      · rw [if_pos hu, List.singleton_append,
          pctBytesStrict_lit (uriUnreserved_ne hu)]
        rw [encodeURIComponentChars] at ih
        rw [ih]
        rfl
      · rw [if_neg hu, pctBytesStrict_pcts (utf8Bytes_lt c)]
        rw [encodeURIComponentChars] at ih
        rw [ih]
        rfl
  rw [decodeURIComponentChars, key]
  simp [utf8DecodeStrict_flat]

/-- Characters left literal by the form-urlencoded serializer:
alphanumerics and `* - . _`. -/
def formUnreserved (c : Char) : Bool :=
  (65 ≤ c.toNat ∧ c.toNat ≤ 90) ∨ (97 ≤ c.toNat ∧ c.toNat ≤ 122) ∨
    (48 ≤ c.toNat ∧ c.toNat ≤ 57) ∨ c.toNat = 42 ∨ c.toNat = 45 ∨
    c.toNat = 46 ∨ c.toNat = 95

/-- The `application/x-www-form-urlencoded` serializer for one string
(used by `URLSearchParams.toString`). -/
def formEncodeChars (cs : List Char) : List Char :=
  cs.flatMap fun c =>
    if c = ' ' then ['+']
    else if formUnreserved c then [c] else (utf8Bytes c).flatMap pctByte

/-- The `application/x-www-form-urlencoded` decoder for one string
(used when parsing a query string). -/
def formDecodeChars (cs : List Char) : List Char :=
  utf8Decode (pctBytesForm cs)

theorem formUnreserved_ne {c : Char} (h : formUnreserved c) :
    c ≠ '%' ∧ c ≠ '+' := by
  constructor <;> intro heq <;> subst heq <;> exact absurd h (by decide)

theorem formDecodeChars_encode (cs : List Char) :
    formDecodeChars (formEncodeChars cs) = cs := by
  have key : pctBytesForm (formEncodeChars cs) = cs.flatMap utf8Bytes := by
    induction cs with
    | nil => simp [formEncodeChars, pctBytesForm]
    | cons c cs ih =>
      rw [formEncodeChars, List.flatMap_cons]
      rw [formEncodeChars] at ih
      by_cases hsp : c = ' '
      · subst hsp
        rw [if_pos rfl, List.singleton_append, pctBytesForm_plus, ih]
        simp [utf8Bytes]
      · rw [if_neg hsp]
        by_cases hu : formUnreserved c
        · obtain ⟨h1, h2⟩ := formUnreserved_ne hu
          rw [if_pos hu, List.singleton_append, pctBytesForm_lit h1 h2, ih,
            List.flatMap_cons]
        · rw [if_neg hu, pctBytesForm_pcts (utf8Bytes_lt c), ih,
            List.flatMap_cons]
  rw [formDecodeChars, key, utf8Decode_flat]

/-! ## JSON values (`JSON.stringify` / `JSON.parse`)

JSON numbers are modelled as exact integers; `JSON.parse` is modelled
on whitespace-free JSON texts (which covers every output of
`JSON.stringify`), rejecting texts (`none`) the way the platform
throws.  Unicode escapes denoting surrogate halves are rejected (Lean
strings cannot hold the lone surrogates ECMAScript would produce). -/

theorem charToNat_ofNat {n : Nat} (h : n < 0xD800) :
    (Char.ofNat n).toNat = n := by
  unfold Char.ofNat
  rw [dif_pos (by left; exact (by exact_mod_cast h))]
  rfl

def isDigitChar (c : Char) : Bool := 48 ≤ c.toNat ∧ c.toNat ≤ 57

/-- Decimal digit character. -/
def digitChar (n : Nat) : Char := Char.ofNat (48 + n)

def natDigitsGo : Nat → List Char → List Char
  | n, acc =>
    if n < 10 then digitChar n :: acc
    else natDigitsGo (n / 10) (digitChar (n % 10) :: acc)
termination_by n => n
decreasing_by exact Nat.div_lt_self (by omega) (by omega)

/-- Decimal digits of a natural number, most significant first. -/
def natDigits (n : Nat) : List Char := natDigitsGo n []

/-- Value of a digit list, most significant first. -/
def digitsToNat (ds : List Char) : Nat :=
  ds.foldl (fun a c => 10 * a + (c.toNat - 48)) 0

theorem natDigitsGo_append (n : Nat) (acc : List Char) :
    natDigitsGo n acc = natDigitsGo n [] ++ acc := by
  induction n using Nat.strong_induction_on generalizing acc with
  | _ n ih =>
    by_cases h : n < 10
    · conv_lhs => rw [natDigitsGo, if_pos h]
      conv_rhs => rw [natDigitsGo, if_pos h]
      rfl
    · conv_lhs => rw [natDigitsGo, if_neg h]
      conv_rhs => rw [natDigitsGo, if_neg h]
      rw [ih (n / 10) (Nat.div_lt_self (by omega) (by omega)),
        ih (n / 10) (Nat.div_lt_self (by omega) (by omega))
          (digitChar (n % 10) :: [])]
      simp

theorem natDigits_digits (n : Nat) : ∀ c ∈ natDigits n, isDigitChar c := by
  induction n using Nat.strong_induction_on with
  | _ n ih =>
    intro c hc
    unfold natDigits at hc
    by_cases h : n < 10
    · rw [natDigitsGo, if_pos h] at hc
      simp only [List.mem_singleton] at hc
      subst hc
      simp only [isDigitChar, digitChar, decide_eq_true_eq]
      rw [charToNat_ofNat (by omega)]
      omega
    · rw [natDigitsGo, if_neg h,
        natDigitsGo_append, List.mem_append] at hc
      rcases hc with hc | hc
      · exact ih (n / 10) (Nat.div_lt_self (by omega) (by omega)) c hc
      · simp only [List.mem_singleton] at hc
        subst hc
        simp only [isDigitChar, digitChar, decide_eq_true_eq]
        rw [charToNat_ofNat (by omega)]
        omega

theorem natDigits_ne_nil (n : Nat) : natDigits n ≠ [] := by
  unfold natDigits
  by_cases h : n < 10
  · rw [natDigitsGo, if_pos h]
    simp
  · rw [natDigitsGo, if_neg h, natDigitsGo_append]
    simp

theorem digitsToNat_natDigits (n : Nat) :
    digitsToNat (natDigits n) = n := by
  induction n using Nat.strong_induction_on with
  | _ n ih =>
    unfold natDigits
    by_cases h : n < 10
    · rw [natDigitsGo, if_pos h]
      simp only [digitsToNat, List.foldl_cons, List.foldl_nil]
      simp only [digitChar]
      rw [charToNat_ofNat (by omega)]
      omega
    · conv_lhs => rw [natDigitsGo, if_neg h, natDigitsGo_append]
      have hrec := ih (n / 10) (Nat.div_lt_self (by omega) (by omega))
      unfold natDigits at hrec
      simp only [digitsToNat, List.foldl_append, List.foldl_cons,
        List.foldl_nil] at hrec ⊢
      rw [hrec]
      simp only [digitChar]
      rw [charToNat_ofNat (by omega)]
      omega

/-- Head-of-input predicate used to delimit number parses. -/
def notDigitHead : List Char → Bool
  | [] => true
  | c :: _ => !isDigitChar c

def takeDigits : List Char → List Char × List Char
  | [] => ([], [])
  | c :: rest =>
    if isDigitChar c then (c :: (takeDigits rest).1, (takeDigits rest).2)
    else ([], c :: rest)

theorem takeDigits_append {ds rest : List Char}
    (hds : ∀ c ∈ ds, isDigitChar c) (hr : notDigitHead rest) :
    takeDigits (ds ++ rest) = (ds, rest) := by
  induction ds with
  | nil =>
    cases rest with
    | nil => rfl
    | cons r rs =>
      simp only [notDigitHead, Bool.not_eq_true', ] at hr
      simp only [List.nil_append, takeDigits, hr]
      rw [if_neg (by simp [hr])]
  | cons d ds ih =>
    simp only [List.cons_append, takeDigits,
      if_pos (hds d (by simp)), List.append_eq,
      ih (fun c hc => hds c (by simp [hc]))]

/-- Parse a nonempty run of decimal digits. -/
def parseNum (cs : List Char) : Option (Nat × List Char) :=
  match takeDigits cs with
  | ([], _) => none
  | (ds, rest) => some (digitsToNat ds, rest)

theorem parseNum_natDigits (n : Nat) {rest : List Char}
    (hr : notDigitHead rest) :
    parseNum (natDigits n ++ rest) = some (n, rest) := by
  rw [parseNum, takeDigits_append (natDigits_digits n) hr]
  have hne := natDigits_ne_nil n
  cases h : natDigits n with
  | nil => exact absurd h hne
  | cons d ds =>
    show some (digitsToNat (d :: ds), rest) = some (n, rest)
    rw [← h, digitsToNat_natDigits]

/-- Digits of an integer, `JSON.stringify` style (minus sign plus
decimal digits; integral JS numbers in the safe range print this
way). -/
def intChars (i : Int) : List Char :=
  if i < 0 then '-' :: natDigits i.natAbs else natDigits i.toNat

/-- JS `QuoteJSONString` escaping of one character. -/
def qChar (c : Char) : List Char :=
  if c = '"' then ['\\', '"']
  else if c = '\\' then ['\\', '\\']
  else if c.toNat = 8 then ['\\', 'b']
  else if c.toNat = 9 then ['\\', 't']
  else if c.toNat = 10 then ['\\', 'n']
  else if c.toNat = 12 then ['\\', 'f']
  else if c.toNat = 13 then ['\\', 'r']
  else if c.toNat < 32 then
    ['\\', 'u', '0', '0', hexDigitLower (c.toNat / 16),
     hexDigitLower (c.toNat % 16)]
  else [c]

/-- JS `QuoteJSONString`: quoted, escaped string literal. -/
def qStr (s : List Char) : List Char :=
  '"' :: (s.flatMap qChar ++ ['"'])

/-- One escape sequence after a backslash (ECMAScript JSON grammar).
The second component is the remaining input (consumed even on error,
keeping the driver total).  `\uXXXX` escapes denoting surrogate halves
are rejected. -/
def parseEsc (e : Char) (rest : List Char) : Option Char × List Char :=
  if e = '"' then (some '"', rest)
  else if e = '\\' then (some '\\', rest)
  else if e = '/' then (some '/', rest)
  else if e = 'b' then (some (Char.ofNat 8), rest)
  else if e = 'f' then (some (Char.ofNat 12), rest)
  else if e = 'n' then (some (Char.ofNat 10), rest)
  else if e = 'r' then (some (Char.ofNat 13), rest)
  else if e = 't' then (some (Char.ofNat 9), rest)
  else if e = 'u' then
    match rest with
    | h1 :: h2 :: h3 :: h4 :: rest2 =>
      (match hexVal h1, hexVal h2, hexVal h3, hexVal h4 with
       | some a, some b, some c, some d =>
         if 0xD800 ≤ 4096 * a + 256 * b + 16 * c + d ∧
             4096 * a + 256 * b + 16 * c + d < 0xE000 then none
         else some (Char.ofNat (4096 * a + 256 * b + 16 * c + d))
       | _, _, _, _ => none,
       rest2)
    | _ => (none, rest)
  else (none, rest)

theorem parseEsc_len (e : Char) (rest : List Char) :
    (parseEsc e rest).2.length ≤ rest.length := by
  unfold parseEsc
  repeat' split
  all_goals simp
  all_goals omega

/-- Parse the body of a JSON string literal up to and including the
closing quote. -/
def parseQStr : List Char → Option (List Char × List Char)
  | [] => none
  | c :: rest =>
    if c = '"' then some ([], rest)
    else if c = '\\' then
      match rest with
      | e :: rest1 =>
        match (parseEsc e rest1).1 with
        | some d =>
          (parseQStr (parseEsc e rest1).2).map fun p => (d :: p.1, p.2)
        | none => none
      | [] => none
    else if c.toNat < 32 then none
    else (parseQStr rest).map fun p => (c :: p.1, p.2)
termination_by cs => cs.length
decreasing_by
  · simp only [List.length_cons]
    have := parseEsc_len e rest1
    omega
  · simp

theorem char_eq_ofNat {c : Char} {n : Nat} (h : c.toNat = n) :
    c = Char.ofNat n := by
  rw [← h, Char.ofNat_toNat]

theorem parseQStr_qChar (c : Char) (tail : List Char) :
    parseQStr (qChar c ++ tail) =
      (parseQStr tail).map fun p => (c :: p.1, p.2) := by
  unfold qChar
  by_cases h1 : c = '"'
  · subst h1
    rw [if_pos rfl]
    show parseQStr ('\\' :: '"' :: tail) = _
    rw [parseQStr]
    simp [parseEsc]
  · rw [if_neg h1]
    by_cases h2 : c = '\\'
    · subst h2
      rw [if_pos rfl]
      show parseQStr ('\\' :: '\\' :: tail) = _
      rw [parseQStr]
      simp [parseEsc]
    · rw [if_neg h2]
      by_cases h3 : c.toNat = 8
      · rw [if_pos h3, char_eq_ofNat h3]
        show parseQStr ('\\' :: 'b' :: tail) = _
        rw [parseQStr]
        simp [parseEsc]
      · rw [if_neg h3]
        by_cases h4 : c.toNat = 9
        · rw [if_pos h4, char_eq_ofNat h4]
          show parseQStr ('\\' :: 't' :: tail) = _
          rw [parseQStr]
          simp [parseEsc]
        · rw [if_neg h4]
          by_cases h5 : c.toNat = 10
          · rw [if_pos h5, char_eq_ofNat h5]
            show parseQStr ('\\' :: 'n' :: tail) = _
            rw [parseQStr]
            simp [parseEsc]
          · rw [if_neg h5]
            by_cases h6 : c.toNat = 12
            · rw [if_pos h6, char_eq_ofNat h6]
              show parseQStr ('\\' :: 'f' :: tail) = _
              rw [parseQStr]
              simp [parseEsc]
            · rw [if_neg h6]
              by_cases h7 : c.toNat = 13
              · rw [if_pos h7, char_eq_ofNat h7]
                show parseQStr ('\\' :: 'r' :: tail) = _
                rw [parseQStr]
                simp [parseEsc]
              · rw [if_neg h7]
                by_cases h8 : c.toNat < 32
                · rw [if_pos h8]
                  have hesc : parseEsc 'u' ('0' :: '0' ::
                      hexDigitLower (c.toNat / 16) ::
                      hexDigitLower (c.toNat % 16) :: tail) =
                      (some c, tail) := by
                    unfold parseEsc
                    rw [if_neg (by decide), if_neg (by decide),
                      if_neg (by decide), if_neg (by decide),
                      if_neg (by decide), if_neg (by decide),
                      if_neg (by decide), if_neg (by decide), if_pos rfl]
                    have hv1 : hexVal '0' = some 0 := by decide
                    simp only [hv1,
                      hexVal_hexDigitLower (by omega : c.toNat / 16 < 16),
                      hexVal_hexDigitLower (by omega : c.toNat % 16 < 16)]
                    have harith : 4096 * 0 + 256 * 0 + 16 * (c.toNat / 16) +
                        c.toNat % 16 = c.toNat := by omega
                    simp only [harith]
                    rw [if_neg (by omega), Char.ofNat_toNat]
                  show parseQStr ('\\' :: 'u' :: '0' :: '0' ::
                    hexDigitLower (c.toNat / 16) ::
                    hexDigitLower (c.toNat % 16) :: tail) = _
                  rw [parseQStr.eq_def]
                  simp only [if_neg (by decide : ¬('\\' = '"')),
                    if_pos (rfl : ('\\' : Char) = '\\'), hesc, if_true]
                · rw [if_neg h8]
                  show parseQStr (c :: tail) = _
                  rw [parseQStr.eq_def]
                  simp only [if_neg h1, if_neg h2, if_neg h8]

theorem parseQStr_quoted (s : List Char) (rest : List Char) :
    parseQStr (s.flatMap qChar ++ '"' :: rest) = some (s, rest) := by
  induction s with
  | nil =>
    rw [List.flatMap_nil, List.nil_append, parseQStr.eq_def]
    simp
  | cons c s ih =>
    rw [List.flatMap_cons, List.append_assoc, parseQStr_qChar, ih]
    rfl

/-- Left curly brace (written via its code point). -/
def lbrace : Char := Char.ofNat 123

/-- Right curly brace (written via its code point). -/
def rbrace : Char := Char.ofNat 125

/-- JSON values.  Numbers are exact integers (see the header note). -/
inductive Json where
  | null
  | bool (b : Bool)
  | num (n : Int)
  | str (s : String)
  | arr (elems : List Json)
  | obj (fields : List (String × Json))

mutual

/-- Model of `JSON.stringify` (no indentation). -/
def stringifyChars : Json → List Char
  | .null => 'n' :: ['u', 'l', 'l']
  | .bool true => 't' :: ['r', 'u', 'e']
  | .bool false => 'f' :: ['a', 'l', 's', 'e']
  | .num n => intChars n
  | .str s => qStr s.data
  | .arr [] => ['[', ']']
  | .arr (e :: es) => '[' :: (stringifyChars e ++ stringifyTail es ++ [']'])
  | .obj [] => [lbrace, rbrace]
  | .obj (f :: fs) =>
    lbrace :: (stringifyField f ++ stringifyFTail fs ++ [rbrace])

def stringifyTail : List Json → List Char
  | [] => []
  | e :: es => ',' :: (stringifyChars e ++ stringifyTail es)

def stringifyField : String × Json → List Char
  | (k, v) => qStr k.data ++ ':' :: stringifyChars v

def stringifyFTail : List (String × Json) → List Char
  | [] => []
  | f :: fs => ',' :: (stringifyField f ++ stringifyFTail fs)

end

mutual

def jsize : Json → Nat
  | .null => 1
  | .bool _ => 1
  | .num _ => 1
  | .str _ => 1
  | .arr es => lsize es + 1
  | .obj fs => fsize fs + 1

def lsize : List Json → Nat
  | [] => 1
  | e :: es => jsize e + 1 + lsize es

def fsize : List (String × Json) → Nat
  | [] => 1
  | (_, v) :: fs => jsize v + 1 + fsize fs

end

theorem jsize_pos (v : Json) : 1 ≤ jsize v := by
  cases v <;> simp [jsize]

def expectChars : List Char → List Char → Option (List Char)
  | [], cs => some cs
  | p :: ps, c :: cs => if c = p then expectChars ps cs else none
  | _ :: _, [] => none

theorem expectChars_append (ps rest : List Char) :
    expectChars ps (ps ++ rest) = some rest := by
  induction ps with
  | nil => rfl
  | cons p ps ih => simp [expectChars, ih]

mutual

/-- Model of `JSON.parse` on whitespace-free texts: parse one JSON
value, returning it with the remaining input.  Fuel bounds recursion
depth; `jsize` of the value is always enough. -/
def parseVal : Nat → List Char → Option (Json × List Char)
  | 0, _ => none
  | fuel + 1, cs =>
    match cs with
    | [] => none
    | c :: rest =>
      if c = 'n' then
        (expectChars ['u', 'l', 'l'] rest).map fun r => (Json.null, r)
      else if c = 't' then
        (expectChars ['r', 'u', 'e'] rest).map fun r => (Json.bool true, r)
      else if c = 'f' then
        (expectChars ['a', 'l', 's', 'e'] rest).map fun r =>
          (Json.bool false, r)
      else if c = '"' then
        (parseQStr rest).map fun p => (Json.str (String.mk p.1), p.2)
      else if c = '[' then
        match rest with
        | r1 :: rest2 =>
          if r1 = ']' then some (Json.arr [], rest2)
          else (parseElems fuel (r1 :: rest2)).map fun p =>
            (Json.arr p.1, p.2)
        | [] => none
      else if c = lbrace then
        match rest with
        | r1 :: rest2 =>
          if r1 = rbrace then some (Json.obj [], rest2)
          else (parseMembers fuel (r1 :: rest2)).map fun p =>
            (Json.obj p.1, p.2)
        | [] => none
      else if c = '-' then
        (parseNum rest).map fun p => (Json.num (-(p.1 : Int)), p.2)
      else if isDigitChar c then
        (parseNum (c :: rest)).map fun p => (Json.num (p.1 : Int), p.2)
      else none

def parseElems : Nat → List Char → Option (List Json × List Char)
  | 0, _ => none
  | fuel + 1, cs =>
    match parseVal fuel cs with
    | some (v, r) =>
      match r with
      | r1 :: r2 =>
        if r1 = ',' then (parseElems fuel r2).map fun p => (v :: p.1, p.2)
        else if r1 = ']' then some ([v], r2)
        else none
      | [] => none
    | none => none

def parseMembers : Nat → List Char → Option (List (String × Json) × List Char)
  | 0, _ => none
  | fuel + 1, cs =>
    match cs with
    | c :: rest =>
      if c = '"' then
        match parseQStr rest with
        | some (k, r1) =>
          match r1 with
          | c2 :: r2 =>
            if c2 = ':' then
              match parseVal fuel r2 with
              | some (v, r3) =>
                match r3 with
                | c4 :: r4 =>
                  if c4 = ',' then
                    (parseMembers fuel r4).map fun p =>
                      ((String.mk k, v) :: p.1, p.2)
                  else if c4 = rbrace then some ([(String.mk k, v)], r4)
                  else none
                | [] => none
              | none => none
            else none
          | [] => none
        | none => none
      else none
    | [] => none

end

theorem lsize_pos (es : List Json) : 1 ≤ lsize es := by
  cases es <;> simp [lsize] <;> omega

theorem fsize_pos (fs : List (String × Json)) : 1 ≤ fsize fs := by
  cases fs with
  | nil => simp [fsize]
  | cons f fs => obtain ⟨k, v⟩ := f
                 simp [fsize]
                 omega

/-- Possible first characters of a serialized JSON value. -/
def headCat (c : Char) : Prop :=
  c = 'n' ∨ c = 't' ∨ c = 'f' ∨ c = '"' ∨ c = '[' ∨ c = lbrace ∨
    c = '-' ∨ isDigitChar c

theorem stringify_head (v : Json) :
    ∃ c cs, stringifyChars v = c :: cs ∧ headCat c := by
  cases v with
  | null => exact ⟨'n', _, rfl, Or.inl rfl⟩
  | bool b =>
    cases b with
    | true => exact ⟨'t', _, rfl, Or.inr (Or.inl rfl)⟩
    | false => exact ⟨'f', _, rfl, Or.inr (Or.inr (Or.inl rfl))⟩
  | num n =>
    rw [show stringifyChars (Json.num n) = intChars n from rfl, intChars]
    by_cases h : n < 0
    · rw [if_pos h]
      exact ⟨'-', _, rfl, by simp [headCat]⟩
    · rw [if_neg h]
      cases hnd : natDigits n.toNat with
      | nil => exact absurd hnd (natDigits_ne_nil _)
      | cons d ds =>
        refine ⟨d, ds, rfl, ?_⟩
        have hd : isDigitChar d := natDigits_digits _ d (by rw [hnd]; simp)
        simp [headCat, hd]
  | str s => exact ⟨'"', _, rfl, by simp [headCat]⟩
  | arr es =>
    cases es with
    | nil => exact ⟨'[', _, rfl, by simp [headCat]⟩
    | cons e es => exact ⟨'[', _, rfl, by simp [headCat]⟩
  | obj fs =>
    cases fs with
    | nil => exact ⟨lbrace, _, rfl, by simp [headCat]⟩
    | cons f fs => exact ⟨lbrace, _, rfl, by simp [headCat]⟩

theorem headCat_ne {c : Char} (h : headCat c) :
    c ≠ ']' ∧ c ≠ rbrace := by
  rcases h with rfl | rfl | rfl | rfl | rfl | rfl | rfl | hd
  case inr.inr.inr.inr.inr.inr.inr =>
    constructor <;> intro heq <;> subst heq <;> exact absurd hd (by decide)
  all_goals exact ⟨by decide, by decide⟩

theorem digit_notVal {c : Char} (hd : isDigitChar c) :
    c ≠ 'n' ∧ c ≠ 't' ∧ c ≠ 'f' ∧ c ≠ '"' ∧ c ≠ '[' ∧ c ≠ lbrace ∧
      c ≠ '-' := by
  refine ⟨?_, ?_, ?_, ?_, ?_, ?_, ?_⟩ <;> intro heq <;> subst heq <;>
    exact absurd hd (by decide)

theorem parse_stringify_core (n : Nat) :
    (∀ v fuel rest, jsize v ≤ n → jsize v ≤ fuel → notDigitHead rest →
      parseVal fuel (stringifyChars v ++ rest) = some (v, rest)) ∧
    (∀ e es fuel rest, lsize (e :: es) ≤ n → lsize (e :: es) ≤ fuel →
      notDigitHead rest →
      parseElems fuel (stringifyChars e ++ (stringifyTail es ++ ']' :: rest)) =
        some (e :: es, rest)) ∧
    (∀ k v fs fuel rest, fsize ((k, v) :: fs) ≤ n →
      fsize ((k, v) :: fs) ≤ fuel → notDigitHead rest →
      parseMembers fuel
        (stringifyField (k, v) ++ (stringifyFTail fs ++ rbrace :: rest)) =
        some ((k, v) :: fs, rest)) := by
  induction n using Nat.strong_induction_on with
  | _ n ih =>
    refine ⟨?_, ?_, ?_⟩
    · intro v fuel rest hn hf hr
      have h1 := jsize_pos v
      cases fuel with
      | zero => omega
      | succ f =>
        cases v with
        | null =>
          show parseVal (f + 1) ('n' :: 'u' :: 'l' :: 'l' :: rest) = _
          rw [parseVal]
          simp [expectChars]
        | bool b =>
          cases b with
          | true =>
            show parseVal (f + 1) ('t' :: 'r' :: 'u' :: 'e' :: rest) = _
            rw [parseVal]
            simp [expectChars]
          | false =>
            show parseVal (f + 1) ('f' :: 'a' :: 'l' :: 's' :: 'e' :: rest) = _
            rw [parseVal]
            simp [expectChars]
        | num m =>
          rw [show stringifyChars (Json.num m) = intChars m from rfl, intChars]
          by_cases hneg : m < 0
          · rw [if_pos hneg]
            show parseVal (f + 1) ('-' :: (natDigits m.natAbs ++ rest)) = _
            rw [parseVal.eq_def]
            simp only [if_neg (by decide : ¬('-' = 'n')),
              if_neg (by decide : ¬('-' = 't')),
              if_neg (by decide : ¬('-' = 'f')),
              if_neg (by decide : ¬('-' = '"')),
              if_neg (by decide : ¬('-' = '[')),
              if_neg (by decide : ¬(('-' : Char) = lbrace)), if_pos rfl]
            rw [parseNum_natDigits m.natAbs hr]
            have hv : -((m.natAbs : Nat) : Int) = m := by omega
            show some (Json.num (-((m.natAbs : Nat) : Int)), rest) =
              some (Json.num m, rest)
            rw [hv]
          · rw [if_neg hneg]
            cases hnd : natDigits m.toNat with
            | nil => exact absurd hnd (natDigits_ne_nil _)
            | cons d ds =>
              have hd : isDigitChar d :=
                natDigits_digits _ d (by rw [hnd]; simp)
              obtain ⟨q1, q2, q3, q4, q5, q6, q7⟩ := digit_notVal hd
              show parseVal (f + 1) (d :: (ds ++ rest)) = _
              rw [parseVal.eq_def]
              simp only [if_neg q1, if_neg q2, if_neg q3, if_neg q4,
                if_neg q5, if_neg q6, if_neg q7, if_pos hd]
              rw [show d :: (ds ++ rest) = natDigits m.toNat ++ rest from
                by rw [hnd]; rfl]
              rw [parseNum_natDigits m.toNat hr]
              have hv : ((m.toNat : Nat) : Int) = m := by omega
              show some (Json.num ((m.toNat : Nat) : Int), rest) =
                some (Json.num m, rest)
              rw [hv]
        | str s =>
          rw [show stringifyChars (Json.str s) = qStr s.data from rfl, qStr]
          show parseVal (f + 1)
            ('"' :: ((s.data.flatMap qChar ++ ['"']) ++ rest)) = _
          rw [parseVal.eq_def]
          simp only [if_neg (by decide : ¬('"' = 'n')),
            if_neg (by decide : ¬('"' = 't')),
            if_neg (by decide : ¬('"' = 'f')), if_pos rfl]
          rw [List.append_assoc,
            show ['"'] ++ rest = '"' :: rest from rfl,
            parseQStr_quoted]
          rfl
        | arr es =>
          cases es with
          | nil =>
            show parseVal (f + 1) ('[' :: ']' :: rest) = _
            rw [parseVal]
            simp
          | cons e es =>
            obtain ⟨c0, cs0, hs0, hcat⟩ := stringify_head e
            obtain ⟨hne1, hne2⟩ := headCat_ne hcat
            show parseVal (f + 1)
              ('[' :: ((stringifyChars e ++ stringifyTail es ++ [']']) ++
                rest)) = _
            have hshape : (stringifyChars e ++ stringifyTail es ++ [']']) ++
                rest = c0 :: (cs0 ++ (stringifyTail es ++ ']' :: rest)) := by
              rw [hs0]
              simp
            rw [hshape, parseVal.eq_def]
            simp only [if_neg (by decide : ¬('[' = 'n')),
              if_neg (by decide : ¬('[' = 't')),
              if_neg (by decide : ¬('[' = 'f')),
              if_neg (by decide : ¬('[' = '"')), if_pos rfl, if_neg hne1]
            rw [show c0 :: (cs0 ++ (stringifyTail es ++ ']' :: rest)) =
              stringifyChars e ++ (stringifyTail es ++ ']' :: rest) from by
                rw [hs0]; rfl]
            have hB := (ih (lsize (e :: es)) (by
              simp only [jsize] at hn
              omega)).2.1 e es f rest le_rfl (by
                simp only [jsize] at hf
                omega) hr
            rw [hB]
            simp
        | obj fs =>
          cases fs with
          | nil =>
            show parseVal (f + 1) (lbrace :: rbrace :: rest) = _
            rw [parseVal]
            simp [lbrace, rbrace]
          | cons kv fs =>
            obtain ⟨k, v⟩ := kv
            show parseVal (f + 1)
              (lbrace :: ((stringifyField (k, v) ++ stringifyFTail fs ++
                [rbrace]) ++ rest)) = _
            have hshape : (stringifyField (k, v) ++ stringifyFTail fs ++
                [rbrace]) ++ rest =
                '"' :: ((k.data.flatMap qChar ++ ['"']) ++
                  (':' :: stringifyChars v ++
                    (stringifyFTail fs ++ rbrace :: rest))) := by
              rw [show stringifyField (k, v) =
                qStr k.data ++ ':' :: stringifyChars v from rfl, qStr]
              simp
            rw [hshape, parseVal.eq_def]
            simp only [if_neg (by decide : ¬(lbrace = 'n')),
              if_neg (by decide : ¬(lbrace = 't')),
              if_neg (by decide : ¬(lbrace = 'f')),
              if_neg (by decide : ¬(lbrace = '"')),
              if_neg (by decide : ¬(lbrace = '[')),
              if_pos (rfl : lbrace = lbrace),
              if_neg (by decide : ¬(('"' : Char) = rbrace))]
            rw [show '"' :: ((k.data.flatMap qChar ++ ['"']) ++
                (':' :: stringifyChars v ++
                  (stringifyFTail fs ++ rbrace :: rest))) =
              stringifyField (k, v) ++
                (stringifyFTail fs ++ rbrace :: rest) from by
                rw [show stringifyField (k, v) =
                  qStr k.data ++ ':' :: stringifyChars v from rfl, qStr]
                simp]
            have hC := (ih (fsize ((k, v) :: fs)) (by
              simp only [jsize] at hn
              omega)).2.2 k v fs f rest le_rfl (by
                simp only [jsize] at hf
                omega) hr
            rw [hC]
            simp
    · intro e es fuel rest hn hf hr
      have h1 := jsize_pos e
      have h2 := lsize_pos es
      cases fuel with
      | zero => simp only [lsize] at hn hf
                omega
      | succ f =>
        rw [parseElems]
        have hA := (ih (jsize e) (by
          simp only [lsize] at hn
          omega)).1 e f (stringifyTail es ++ ']' :: rest) le_rfl (by
            simp only [lsize] at hf
            omega) (by
              cases es with
              | nil => rfl
              | cons e2 es2 =>
                rw [show stringifyTail (e2 :: es2) =
                  ',' :: (stringifyChars e2 ++ stringifyTail es2) from rfl]
                rfl)
        rw [hA]
        cases es with
        | nil =>
          show (match (']' :: rest : List Char) with
            | r1 :: r2 =>
              if r1 = ',' then
                (parseElems f r2).map fun (p : List Json × List Char) =>
                  (e :: p.1, p.2)
              else if r1 = ']' then some ([e], r2)
              else none
            | [] => none) = some ([e], rest)
          simp
        | cons e2 es2 =>
          rw [show stringifyTail (e2 :: es2) ++ ']' :: rest =
            ',' :: (stringifyChars e2 ++
              (stringifyTail es2 ++ ']' :: rest)) from by
              rw [show stringifyTail (e2 :: es2) =
                ',' :: (stringifyChars e2 ++ stringifyTail es2) from rfl]
              simp]
          show (match (',' :: (stringifyChars e2 ++
              (stringifyTail es2 ++ ']' :: rest)) : List Char) with
            | r1 :: r2 =>
              if r1 = ',' then
                (parseElems f r2).map fun (p : List Json × List Char) =>
                  (e :: p.1, p.2)
              else if r1 = ']' then some ([e], r2)
              else none
            | [] => none) = _
          simp only [reduceIte]
          have hlt2 : lsize (e2 :: es2) < n := by
            simp only [lsize] at hn ⊢
            omega
          have hfu2 : lsize (e2 :: es2) ≤ f := by
            simp only [lsize] at hf ⊢
            omega
          have hB := (ih (lsize (e2 :: es2)) hlt2).2.1 e2 es2 f rest
            le_rfl hfu2 hr
          rw [hB]
          rfl
    · intro k v fs fuel rest hn hf hr
      have h1 := jsize_pos v
      have h2 := fsize_pos fs
      cases fuel with
      | zero => simp only [fsize] at hn hf
                omega
      | succ f =>
        rw [show stringifyField (k, v) ++
            (stringifyFTail fs ++ rbrace :: rest) =
          '"' :: ((k.data.flatMap qChar ++ ['"']) ++
            (':' :: (stringifyChars v ++
              (stringifyFTail fs ++ rbrace :: rest)))) from by
            rw [show stringifyField (k, v) =
              qStr k.data ++ ':' :: stringifyChars v from rfl, qStr]
            simp]
        rw [parseMembers.eq_def]
        simp only [if_pos (rfl : ('"' : Char) = '"')]
        rw [List.append_assoc,
          show ['"'] ++ (':' :: (stringifyChars v ++
            (stringifyFTail fs ++ rbrace :: rest))) =
            '"' :: (':' :: (stringifyChars v ++
              (stringifyFTail fs ++ rbrace :: rest))) from rfl,
          parseQStr_quoted]
        simp only [if_pos (rfl : (':' : Char) = ':')]
        have hA := (ih (jsize v) (by
          simp only [fsize] at hn
          omega)).1 v f (stringifyFTail fs ++ rbrace :: rest) le_rfl (by
            simp only [fsize] at hf
            omega) (by
              cases fs with
              | nil => rfl
              | cons f2 fs2 =>
                rw [show stringifyFTail (f2 :: fs2) =
                  ',' :: (stringifyField f2 ++ stringifyFTail fs2) from rfl]
                rfl)
        rw [hA]
        cases fs with
        | nil =>
          show (match (rbrace :: rest : List Char) with
            | c4 :: r4 =>
              if c4 = ',' then
                (parseMembers f r4).map
                  fun (p : List (String × Json) × List Char) =>
                    ((String.mk k.data, v) :: p.1, p.2)
              else if c4 = rbrace then some ([(String.mk k.data, v)], r4)
              else none
            | [] => none) = some ([(k, v)], rest)
          simp [rbrace]
        | cons f2 fs2 =>
          obtain ⟨k2, v2⟩ := f2
          rw [show stringifyFTail ((k2, v2) :: fs2) ++ rbrace :: rest =
            ',' :: (stringifyField (k2, v2) ++
              (stringifyFTail fs2 ++ rbrace :: rest)) from by
              rw [show stringifyFTail ((k2, v2) :: fs2) =
                ',' :: (stringifyField (k2, v2) ++ stringifyFTail fs2)
                from rfl]
              simp]
          show (match (',' :: (stringifyField (k2, v2) ++
              (stringifyFTail fs2 ++ rbrace :: rest)) : List Char) with
            | c4 :: r4 =>
              if c4 = ',' then
                (parseMembers f r4).map
                  fun (p : List (String × Json) × List Char) =>
                    ((String.mk k.data, v) :: p.1, p.2)
              else if c4 = rbrace then some ([(String.mk k.data, v)], r4)
              else none
            | [] => none) = _
          simp only [reduceIte]
          have hlt2 : fsize ((k2, v2) :: fs2) < n := by
            simp only [fsize] at hn ⊢
            omega
          have hfu2 : fsize ((k2, v2) :: fs2) ≤ f := by
            simp only [fsize] at hf ⊢
            omega
          have hC := (ih (fsize ((k2, v2) :: fs2)) hlt2).2.2 k2 v2 fs2 f
            rest le_rfl hfu2 hr
          rw [hC]
          rfl

theorem intChars_ne_nil (i : Int) : intChars i ≠ [] := by
  unfold intChars
  split
  · simp
  · exact natDigits_ne_nil _

theorem size_le_core (n : Nat) :
    (∀ v, jsize v ≤ n → jsize v ≤ 2 * (stringifyChars v).length) ∧
    (∀ es, lsize es ≤ n → lsize es ≤ 2 * (stringifyTail es).length + 2) ∧
    (∀ fs, fsize fs ≤ n →
      fsize fs ≤ 2 * (stringifyFTail fs).length + 2) := by
  induction n using Nat.strong_induction_on with
  | _ n ih =>
    have hfield : ∀ (k : String) (v : Json), (stringifyField (k, v)).length =
        (k.data.flatMap qChar).length + 3 + (stringifyChars v).length := by
      intro k v
      rw [show stringifyField (k, v) =
        qStr k.data ++ ':' :: stringifyChars v from rfl, qStr]
      simp
      omega
    refine ⟨?_, ?_, ?_⟩
    · intro v hn
      cases v with
      | null => simp [stringifyChars, jsize]
      | bool b => cases b <;> simp [stringifyChars, jsize]
      | num m =>
        have h := intChars_ne_nil m
        have : 1 ≤ (intChars m).length := by
          cases hc : intChars m with
          | nil => exact absurd hc h
          | cons a as => simp
        simp only [show stringifyChars (Json.num m) = intChars m from rfl,
          jsize]
        omega
      | str s =>
        simp only [show stringifyChars (Json.str s) = qStr s.data from rfl,
          qStr, jsize]
        simp
        omega
      | arr es =>
        cases es with
        | nil => simp [stringifyChars, jsize, lsize]
        | cons e es =>
          simp only [jsize] at hn ⊢
          have hA := (ih (jsize e) (by
            simp only [lsize] at hn
            have := jsize_pos e
            have := lsize_pos es
            omega)).1 e le_rfl
          have hB := (ih (lsize es) (by
            simp only [lsize] at hn
            have := jsize_pos e
            omega)).2.1 es le_rfl
          rw [show stringifyChars (Json.arr (e :: es)) =
            '[' :: (stringifyChars e ++ stringifyTail es ++ [']'])
            from rfl]
          simp only [lsize, List.length_cons, List.length_append,
            List.length_singleton] at *
          omega
      | obj fs =>
        cases fs with
        | nil => simp [stringifyChars, jsize, fsize]
        | cons kv fs =>
          obtain ⟨k, v⟩ := kv
          simp only [jsize] at hn ⊢
          have hA := (ih (jsize v) (by
            simp only [fsize] at hn
            have := jsize_pos v
            have := fsize_pos fs
            omega)).1 v le_rfl
          have hC := (ih (fsize fs) (by
            simp only [fsize] at hn
            have := jsize_pos v
            omega)).2.2 fs le_rfl
          rw [show stringifyChars (Json.obj ((k, v) :: fs)) =
            lbrace :: (stringifyField (k, v) ++ stringifyFTail fs ++
              [rbrace]) from rfl]
          have hfl := hfield k v
          simp only [fsize, List.length_cons, List.length_append,
            List.length_singleton] at *
          omega
    · intro es hn
      cases es with
      | nil => simp [stringifyTail, lsize]
      | cons e es =>
        simp only [lsize] at hn ⊢
        have hA := (ih (jsize e) (by
          have := jsize_pos e
          have := lsize_pos es
          omega)).1 e le_rfl
        have hB := (ih (lsize es) (by
          have := jsize_pos e
          omega)).2.1 es le_rfl
        rw [show stringifyTail (e :: es) =
          ',' :: (stringifyChars e ++ stringifyTail es) from rfl]
        simp only [List.length_cons, List.length_append] at *
        omega
    · intro fs hn
      cases fs with
      | nil => simp [stringifyFTail, fsize]
      | cons kv fs =>
        obtain ⟨k, v⟩ := kv
        simp only [fsize] at hn ⊢
        have hA := (ih (jsize v) (by
          have := jsize_pos v
          have := fsize_pos fs
          omega)).1 v le_rfl
        have hC := (ih (fsize fs) (by
          have := jsize_pos v
          omega)).2.2 fs le_rfl
        rw [show stringifyFTail ((k, v) :: fs) =
          ',' :: (stringifyField (k, v) ++ stringifyFTail fs) from rfl]
        have hfl := hfield k v
        simp only [List.length_cons, List.length_append] at *
        omega

/-- Model of `JSON.stringify` on strings. -/
def jsonStringify (v : Json) : String := String.mk (stringifyChars v)

/-- Model of `JSON.parse` (whitespace-free texts; `none` models a
thrown `SyntaxError`).  The fuel `2 * length + 2` dominates the size of
any value whose serialization fits in the input. -/
def jsonParse (s : String) : Option Json :=
  match parseVal (2 * s.data.length + 2) s.data with
  | some (v, []) => some v
  | _ => none

theorem jsonParse_jsonStringify (v : Json) :
    jsonParse (jsonStringify v) = some v := by
  unfold jsonParse jsonStringify
  have hsz : jsize v ≤ 2 * (stringifyChars v).length :=
    (size_le_core (jsize v)).1 v le_rfl
  have hp := (parse_stringify_core (jsize v)).1 v
    (2 * (stringifyChars v).length + 2) [] le_rfl (by omega) rfl
  rw [List.append_nil] at hp
  rw [show (String.mk (stringifyChars v)).data = stringifyChars v from rfl,
    hp]

/-! ## The default handler functions (`defaults` in `src/utils.ts`)

`encode`/`decode` are the standard URI component escapes, `serialize`
is `JSON.stringify`, and `deserialize` parses JSON but maps the literal
string `"undefined"` to the absent value (JS `undefined`, modelled as
`none`).  The intermediate type handed to `resolve` is `Option Json`
(`none` = `undefined`); the outer `Option` models a thrown exception.
-/

/-- `defaults.encode`: `(serialized) => encodeURIComponent(serialized)`. -/
def defaultEncode (serialized : String) : String :=
  String.mk (encodeURIComponentChars serialized.data)

/-- `defaults.decode`: `(serialized) => decodeURIComponent(serialized)`
(`none` models a thrown `URIError`). -/
def defaultDecode (serialized : String) : Option String :=
  (decodeURIComponentChars serialized.data).map String.mk

/-- `defaults.serialize`: `(value) => JSON.stringify(value)`. -/
def defaultSerialize (value : Json) : String := jsonStringify value

/-- `defaults.deserialize`:
`(query) => query !== "undefined" ? JSON.parse(query) : undefined`. -/
def defaultDeserialize (query : String) : Option (Option Json) :=
  if query = "undefined" then some none else (jsonParse query).map some

mutual

/-- JSON values that correspond exactly to JS runtime values: numbers
in the IEEE-754 safe-integer range and objects without duplicate
keys. -/
def jsAccepted : Json → Bool
  | .null => true
  | .bool _ => true
  | .num n => n.natAbs < 2 ^ 53
  | .str _ => true
  | .arr es => jsAcceptedList es
  | .obj fs => decide (fs.map Prod.fst).Nodup && jsAcceptedFields fs

def jsAcceptedList : List Json → Bool
  | [] => true
  | e :: es => jsAccepted e && jsAcceptedList es

def jsAcceptedFields : List (String × Json) → Bool
  | [] => true
  | (_, v) :: fs => jsAccepted v && jsAcceptedFields fs

end

theorem jsonStringify_ne_undefined (v : Json) :
    jsonStringify v ≠ "undefined" := by
  obtain ⟨c, cs, hs, hcat⟩ := stringify_head v
  intro heq
  have hdata : stringifyChars v = "undefined".data :=
    congrArg String.data heq
  rw [hs] at hdata
  have hc : c = 'u' := by
    have : "undefined".data = 'u' :: "ndefined".data := rfl
    rw [this] at hdata
    exact (List.cons.injEq _ _ _ _ ▸ hdata).1
  subst hc
  rcases hcat with h | h | h | h | h | h | h | h
  all_goals exact absurd h (by decide)

/-- The full default read-back pipeline
`resolve(deserialize(decode(... )))` applied to the default write
pipeline `encode(serialize(v))`, with an identity `resolve`. -/
def defaultRoundtrip (resolve : Option Json → Option Json) (v : Json) :
    Option (Option Json) :=
  ((defaultDecode (defaultEncode (defaultSerialize v))).bind
    defaultDeserialize).map resolve

theorem defaultRoundtrip_id (v : Json) :
    defaultRoundtrip id v = some (some v) := by
  unfold defaultRoundtrip defaultDecode defaultEncode defaultSerialize
  rw [show (String.mk (encodeURIComponentChars
    (jsonStringify v).data)).data =
    encodeURIComponentChars (jsonStringify v).data from rfl]
  rw [decodeURIComponentChars_encode]
  show (defaultDeserialize (String.mk (jsonStringify v).data)).map id =
    some (some v)
  rw [show String.mk (jsonStringify v).data = jsonStringify v from rfl]
  unfold defaultDeserialize
  rw [if_neg (jsonStringify_ne_undefined v), jsonParse_jsonStringify]
  rfl

/-! ## URLSearchParams

Modelled as an ordered list of decoded `(name, value)` pairs, with the
form-urlencoded serializer / parser at the string boundary. -/

/-- `URLSearchParams.get`: first value for a name, if any. -/
def uspGet (l : List (String × String)) (k : String) : Option String :=
  (l.find? (fun p => p.1 == k)).map (·.2)

/-- `URLSearchParams.getAll`: all values for a name, in order. -/
def uspGetAll (l : List (String × String)) (k : String) : List String :=
  (l.filter (fun p => p.1 == k)).map (·.2)

/-- `URLSearchParams.delete`: drop every pair with the given name. -/
def uspDelete (l : List (String × String)) (k : String) :
    List (String × String) :=
  l.filter (fun p => ¬ p.1 == k)

/-- `URLSearchParams.append`. -/
def uspAppend (l : List (String × String)) (k v : String) :
    List (String × String) :=
  l ++ [(k, v)]

/-- `URLSearchParams.set`: replace the first matching pair in place,
drop the others; append if absent. -/
def uspSet : List (String × String) → String → String →
    List (String × String)
  | [], k, v => [(k, v)]
  | p :: rest, k, v =>
    if p.1 = k then (k, v) :: uspDelete rest k else p :: uspSet rest k v

def joinAmp : List (List Char) → List Char
  | [] => []
  | [x] => x
  | x :: y :: xs => x ++ '&' :: joinAmp (y :: xs)

/-- `URLSearchParams.toString`: form-urlencoded serialization. -/
def uspToString (l : List (String × String)) : String :=
  String.mk (joinAmp (l.map fun p =>
    formEncodeChars p.1.data ++ '=' :: formEncodeChars p.2.data))

def splitAmp : List Char → List (List Char)
  | [] => [[]]
  | c :: rest =>
    if c = '&' then [] :: splitAmp rest
    else
      match splitAmp rest with
      | x :: xs => (c :: x) :: xs
      | [] => [[c]]

/-- Split a piece at the first `=` (name, optional value). -/
def splitEq : List Char → List Char × Option (List Char)
  | [] => ([], none)
  | c :: rest =>
    if c = '=' then ([], some rest)
    else ((splitEq rest).1.cons c, (splitEq rest).2)

/-- Parse a form-urlencoded query string (`new URLSearchParams(s)`). -/
def uspParse (s : String) : List (String × String) :=
  (splitAmp s.data).filterMap fun piece =>
    if piece.isEmpty then none
    else some (String.mk (formDecodeChars (splitEq piece).1),
      String.mk (formDecodeChars ((splitEq piece).2.getD [])))

/-- `cachify` (src/utils.ts:253): the exact reconstructed query string
for a parameter with the given values. -/
def cachify (param : String) (values : List String) : String :=
  uspToString (values.map fun v => (param, v))

theorem hexDigitUpper_mem {n : Nat} (h : n < 16) :
    (hexDigitUpper n).toNat ≠ 38 ∧ (hexDigitUpper n).toNat ≠ 61 := by
  interval_cases n <;> decide

theorem formEncodeChars_sep {cs : List Char} :
    ∀ c ∈ formEncodeChars cs, c ≠ '&' ∧ c ≠ '=' := by
  intro c hc
  unfold formEncodeChars at hc
  rw [List.mem_flatMap] at hc
  obtain ⟨a, -, hmem⟩ := hc
  by_cases hsp : a = ' '
  · rw [if_pos hsp] at hmem
    simp only [List.mem_singleton] at hmem
    subst hmem
    exact ⟨by decide, by decide⟩
  · rw [if_neg hsp] at hmem
    by_cases hu : formUnreserved a
    · rw [if_pos hu] at hmem
      simp only [List.mem_singleton] at hmem
      subst hmem
      constructor <;> intro heq <;> subst heq <;> exact absurd hu (by decide)
    · rw [if_neg hu] at hmem
      rw [List.mem_flatMap] at hmem
      obtain ⟨b, hb, hcmem⟩ := hmem
      have hblt : b < 256 := utf8Bytes_lt a b hb
      have h16a : b / 16 < 16 := by omega
      have h16b : b % 16 < 16 := by omega
      simp only [pctByte, List.mem_cons, List.mem_singleton,
        List.not_mem_nil, or_false] at hcmem
      rcases hcmem with rfl | rfl | rfl
      · exact ⟨by decide, by decide⟩
      · have := hexDigitUpper_mem h16a
        constructor <;> intro heq <;>
          simp only [heq] at this <;> revert this <;> decide
      · have := hexDigitUpper_mem h16b
        constructor <;> intro heq <;>
          simp only [heq] at this <;> revert this <;> decide

theorem splitAmp_append {x cs : List Char} {y : List Char}
    {ys : List (List Char)} (hx : ∀ c ∈ x, c ≠ '&')
    (h : splitAmp cs = y :: ys) :
    splitAmp (x ++ cs) = (x ++ y) :: ys := by
  induction x with
  | nil => simp only [List.nil_append, h]
  | cons c x ih =>
    have hc : c ≠ '&' := hx c (by simp)
    have ihx := ih (fun d hd => hx d (by simp [hd]))
    rw [List.cons_append, splitAmp, if_neg hc, ihx]
    rfl

theorem splitEq_append {a : List Char} (ha : ∀ c ∈ a, c ≠ '=')
    (b : List Char) : splitEq (a ++ '=' :: b) = (a, some b) := by
  induction a with
  | nil => simp [splitEq]
  | cons c a ih =>
    have hc : c ≠ '=' := ha c (by simp)
    have iha := ih (fun d hd => ha d (by simp [hd]))
    rw [List.cons_append, splitEq, if_neg hc, iha]

theorem splitAmp_join (pieces : List (List Char)) (hne : pieces ≠ [])
    (hp : ∀ p ∈ pieces, ∀ c ∈ p, c ≠ '&') :
    splitAmp (joinAmp pieces) = pieces := by
  induction pieces with
  | nil => exact absurd rfl hne
  | cons x xs ih =>
    cases xs with
    | nil =>
      show splitAmp (joinAmp [x]) = [x]
      rw [show joinAmp [x] = x from rfl]
      have h0 : splitAmp ([] : List Char) = [] :: [] := rfl
      have h2 := splitAmp_append (hp x (by simp)) h0
      simpa using h2
    | cons y xs2 =>
      rw [show joinAmp (x :: y :: xs2) = x ++ '&' :: joinAmp (y :: xs2)
        from rfl]
      have hrec : splitAmp (joinAmp (y :: xs2)) = y :: xs2 :=
        ih (by simp) (fun p hmem c hc => hp p (by simp [hmem]) c hc)
      have hamp : splitAmp ('&' :: joinAmp (y :: xs2)) =
          [] :: y :: xs2 := by
        rw [splitAmp, if_pos rfl, hrec]
      have h2 := splitAmp_append (hp x (by simp)) hamp
      simpa using h2

theorem uspParse_uspToString (l : List (String × String)) :
    uspParse (uspToString l) = l := by
  unfold uspParse uspToString
  have hq : ∀ q : String × String,
      (if List.isEmpty (formEncodeChars q.1.data ++
          '=' :: formEncodeChars q.2.data) then none
       else some (String.mk (formDecodeChars
          (splitEq (formEncodeChars q.1.data ++
            '=' :: formEncodeChars q.2.data)).1),
         String.mk (formDecodeChars
          ((splitEq (formEncodeChars q.1.data ++
            '=' :: formEncodeChars q.2.data)).2.getD [])))) = some q := by
    intro q
    rw [if_neg (by simp)]
    rw [splitEq_append (fun c hc => (formEncodeChars_sep c hc).2)]
    show some (String.mk (formDecodeChars (formEncodeChars q.1.data)),
      String.mk (formDecodeChars (formEncodeChars q.2.data))) = some q
    rw [formDecodeChars_encode, formDecodeChars_encode]
  cases l with
  | nil => rfl
  | cons p l =>
    rw [show (String.mk (joinAmp (((p :: l).map fun p =>
      formEncodeChars p.1.data ++ '=' :: formEncodeChars p.2.data)))).data =
      joinAmp (((p :: l).map fun p =>
        formEncodeChars p.1.data ++ '=' :: formEncodeChars p.2.data))
      from rfl]
    rw [splitAmp_join _ (by simp) (by
      intro piece hmem c hc
      rw [List.mem_map] at hmem
      obtain ⟨q, -, rfl⟩ := hmem
      rw [List.mem_append] at hc
      rcases hc with hc | hc
      · exact (formEncodeChars_sep c hc).1
      · rw [List.mem_cons] at hc
        rcases hc with rfl | hc
        · decide
        · exact (formEncodeChars_sep c hc).1)]
    rw [List.filterMap_map]
    have main : ∀ m : List (String × String),
        m.filterMap ((fun piece =>
          if List.isEmpty piece then none
          else some (String.mk (formDecodeChars (splitEq piece).1),
            String.mk (formDecodeChars ((splitEq piece).2.getD [])))) ∘
          (fun p : String × String =>
            formEncodeChars p.1.data ++ '=' :: formEncodeChars p.2.data))
          = m := by
      intro m
      induction m with
      | nil => rfl
      | cons q qs ihq =>
        rw [List.filterMap_cons]
        have := hq q
        simp only [Function.comp]
        rw [this, ihq]
    exact main (p :: l)

theorem uspParse_cachify (param : String) (values : List String) :
    uspParse (cachify param values) = values.map fun v => (param, v) := by
  unfold cachify
  exact uspParse_uspToString _

theorem uspGetAll_cachify (param : String) (values : List String) :
    uspGetAll (uspParse (cachify param values)) param = values := by
  rw [uspParse_cachify]
  induction values with
  | nil => rfl
  | cons v vs ih =>
    simp only [uspGetAll, List.map_cons, List.filter_cons] at ih ⊢
    rw [if_pos (by simp)]
    simp only [List.map_cons] at ih ⊢
    exact congrArg (v :: ·) ih

theorem uspGet_eq_head_getAll (l : List (String × String)) (k : String) :
    uspGet l k = (uspGetAll l k).head? := by
  unfold uspGet uspGetAll
  induction l with
  | nil => rfl
  | cons p l ih =>
    by_cases h : p.1 == k
    · simp [List.find?_cons, List.filter_cons, h]
    · simp only [List.find?_cons, List.filter_cons, h]
      simpa using ih

theorem uspGet_cachify (param v : String) (vs : List String) :
    uspGet (uspParse (cachify param (v :: vs))) param = some v := by
  rw [uspGet_eq_head_getAll, uspGetAll_cachify]
  rfl

theorem uspParse_empty : uspParse "" = [] := rfl

/-! ## The synchronization engine (`src/utils.ts`)

Generic over the intermediate type `I` (what `deserialize` produces)
and the application value type `α`.  JS runtime values bound to a field
are modelled by `FieldVal`: either a non-array value or an array of
elements (`Array.isArray` dispatch).  Handler transform functions are
modelled total; a `single`-entries handler bound to an array value
serializes the whole array in JS, which this model does not represent
(the spec calls that shape a logic error), so `serializeVal` falls back
to a default element there. -/

inductive UpdateHistoryBehavior where
  | push
  | replace
deriving DecidableEq

inductive EntryBehavior where
  | multiple
  | single
deriving DecidableEq

/-- `Config` from `src/debounce`. -/
structure DebounceConfig where
  idleMs : Int
  maxWaitMs : Int
deriving DecidableEq

/-- A handler debounce setting: `false | DebounceConfig | null`. -/
inductive DebounceSetting where
  | off
  | cfg (c : DebounceConfig)
  | useGlobal
deriving DecidableEq

/-- One entry of `previousKeys` (legacy key migration). -/
structure PreviousKey where
  fullname : String
  remove : Option Bool := none
  apply : Option Bool := none
  behavior : Option UpdateHistoryBehavior := none

/-- A fully resolved parameter handler (`ResolvedParameterHandler`). -/
structure Handler (I α : Type) where
  resolve : I → String → Option Nat → α
  key : String
  entries : EntryBehavior
  debounce : DebounceSetting
  previousKeys : Option (List PreviousKey)
  history : UpdateHistoryBehavior
  deserialize : String → I
  serialize : α → String
  encode : String → String
  decode : String → String

/-- A user-supplied verbose descriptor (all fields optional except
`resolve`). -/
structure VerboseParameterHandler (I α : Type) where
  key : Option String := none
  history : Option UpdateHistoryBehavior := none
  entries : Option EntryBehavior := none
  debounce : Option DebounceSetting := none
  resolve : I → String → Option Nat → α
  serialize : Option (α → String) := none
  deserialize : Option (String → I) := none
  decode : Option (String → String) := none
  encode : Option (String → String) := none
  previousKeys : Option (List PreviousKey) := none

/-- A user-supplied handler: bare resolve function or verbose
descriptor. -/
inductive ParameterHandler (I α : Type) where
  | fn (resolve : I → String → Option Nat → α)
  | verbose (h : VerboseParameterHandler I α)

/-- `MaybeGetter<T>`: a value or a zero-argument getter (which may
return `undefined`). -/
inductive MaybeGetter (α : Type) where
  | val (a : α)
  | getter (f : Unit → Option α)

/-- `resolve` from the utils module (getter unwrapping with
fallback). -/
def resolveMG (value : Option (MaybeGetter α)) (fallback : α) : α :=
  match value with
  | some (.getter f) => (f ()).getD fallback
  | some (.val a) => a
  | none => fallback

/-- Global `Options` (the `prefix` option is called `prefixOpt`
here). -/
structure Options (I α : Type) where
  prefixOpt : Option (MaybeGetter String) := none
  debounce : Option DebounceConfig := none
  history : Option UpdateHistoryBehavior := none
  encode : Option (String → String) := none
  decode : Option (String → String) := none
  deserialize : Option (String → I) := none
  serialize : Option (α → String) := none

/-- The four function-valued defaults (`defaults.encode` etc.); the
generic engine is parameterized by them, and they are instantiated with
the JSON defaults at `I = Option Json`. -/
structure DefaultFns (I α : Type) where
  encode : String → String
  decode : String → String
  deserialize : String → I
  serialize : α → String

/-- `defaults` instantiated at the JSON types (the function fields;
the constant fields `history = push`, `entries = single`,
`debounce = null`, `previousKeys = null` appear literally in
`verbosify`).  `decode` totalizes `decodeURIComponent` by returning the
input on a decoding error (the error path is outside the engine
model). -/
def defaultFns : DefaultFns (Option Json) (Option Json) where
  encode := defaultEncode
  decode := fun s => (defaultDecode s).getD s
  deserialize := fun q => (defaultDeserialize q).getD none
  serialize := fun v => (v.map defaultSerialize).getD "undefined"

/-- `validParam` (src/utils.ts:203): `encodeURIComponent` of a key. -/
def validParam (key : String) : String :=
  String.mk (encodeURIComponentChars key.data)

/-- The explicit key of a user-supplied handler, if any. -/
def explicitKey : ParameterHandler I α → Option String
  | .fn _ => none
  | .verbose h => h.key

/-- The verbose branch of `verbosify` (src/utils.ts:218-233). -/
def verbosifyVerbose (dflt : DefaultFns I α)
    (h : VerboseParameterHandler I α) (key : String)
    (options : Option (Options I α)) : Handler I α :=
  { resolve := h.resolve
    key := validParam (resolveMG (options.bind (·.prefixOpt)) "" ++
      (h.key.getD key))
    entries := h.entries.getD .single
    debounce := h.debounce.getD .useGlobal
    previousKeys := h.previousKeys
    history := (h.history <|> options.bind (·.history)).getD .push
    deserialize :=
      (h.deserialize <|> options.bind (·.deserialize)).getD
        dflt.deserialize
    serialize :=
      (h.serialize <|> options.bind (·.serialize)).getD dflt.serialize
    encode := (h.encode <|> options.bind (·.encode)).getD dflt.encode
    decode := (h.decode <|> options.bind (·.decode)).getD dflt.decode }

/-- `verbosify` (src/utils.ts:205-233): a bare function becomes a
verbose descriptor with only `resolve` set (the source recurses once;
inlined here). -/
def verbosify (dflt : DefaultFns I α) (handler : ParameterHandler I α)
    (key : String) (options : Option (Options I α)) : Handler I α :=
  match handler with
  | .fn r => verbosifyVerbose dflt { resolve := r } key options
  | .verbose h => verbosifyVerbose dflt h key options

/-- `supportsMultiple` (src/utils.ts:235-238). -/
def supportsMultiple (h : Handler I α) : Bool := h.entries = .multiple

/-- A parameter value on the URL side: one string or repeated
entries. -/
inductive StrVal where
  | one (s : String)
  | many (l : List String)
deriving DecidableEq

/-- A JS field value: a non-array value or an array. -/
inductive FieldVal (α : Type) where
  | scalar (a : α)
  | arr (elems : List α)
deriving DecidableEq

/-- Association list `Map.get`. -/
def alookup (l : List (String × β)) (k : String) : Option β :=
  (l.find? (fun p => p.1 == k)).map (·.2)

/-- Association list `Map.set` (replace in place or append). -/
def aset : List (String × β) → String → β → List (String × β)
  | [], k, v => [(k, v)]
  | p :: rest, k, v =>
    if p.1 = k then (k, v) :: rest else p :: aset rest k v

/-- Association list `Map.delete`. -/
def adel (l : List (String × β)) (k : String) : List (String × β) :=
  l.filter (fun p => ¬ p.1 == k)

/-- `URLState` (src/utils.ts:240): parameter name to value(s). -/
def URLState : Type := List (String × StrVal)

def stateGet (st : URLState) (k : String) : Option StrVal :=
  alookup st k

/-- One step of `getURLState`: fold a `(name, value)` pair into the
grouped state. -/
def stateStep (st : URLState) (kv : String × String) : URLState :=
  match alookup st kv.1 with
  | none => aset st kv.1 (.one kv.2)
  | some (.one v0) => aset st kv.1 (.many [v0, kv.2])
  | some (.many l) => aset st kv.1 (.many (l ++ [kv.2]))

/-- `getURLState` (src/utils.ts:242-251): group the URL's search-param
pairs by name, preserving first-seen order. -/
def getURLState (pairs : List (String × String)) : URLState :=
  pairs.foldl stateStep []

/-- `evaluate` (src/utils.ts:256-261). -/
def evaluate (h : Handler I α) (value : String) (param : String)
    (index : Option Nat := none) : α :=
  h.resolve (h.deserialize (h.decode value)) param index

/-- The top-level `serialize` helper (src/utils.ts:263-266). -/
def serializeVal [Inhabited α] (value : FieldVal α) (h : Handler I α) :
    StrVal :=
  match value with
  | .arr l =>
    if h.entries = .multiple then .many (l.map h.serialize)
    else .one (h.serialize default)
  | .scalar a => .one (h.serialize a)

/-- The top-level `encode` helper (src/utils.ts:268-271). -/
def encodeVal (serialized : StrVal) (h : Handler I α) : StrVal :=
  match serialized with
  | .many l =>
    if h.entries = .multiple then .many (l.map h.encode)
    else .many l
  | .one s => .one (h.encode s)

/-- `parameterize` (src/utils.ts:273-274). -/
def parameterize [Inhabited α] (value : FieldVal α) (h : Handler I α) :
    StrVal :=
  encodeVal (serializeVal value h) h

/-- One committed navigation: the resulting search params and the
history mode used. -/
structure Nav where
  url : List (String × String)
  behavior : UpdateHistoryBehavior
deriving DecidableEq

/-- The browser-plus-globals state the engine mutates: the current
URL's search params, the log of committed navigations, and the three
process-wide registries (`handlerByParam`, `cachedByParam`, and the
debouncer's pending-key set). -/
structure World (I α : Type) where
  url : List (String × String)
  navs : List Nav
  handlerByParam : List (String × Handler I α)
  cachedByParam : List (String × String)
  pendingDebounce : List String

/-- `URLChangeEvent.modifySearchParam` (src/utils.ts:316-331). -/
def modifySearchParam (param : String) (value : Option StrVal)
    (url : List (String × String)) : List (String × String) :=
  match value with
  | none => uspDelete url param
  | some (.many l) => l.foldl (fun u v => uspAppend u param v)
      (uspDelete url param)
  | some (.one s) => uspSet url param s

/-- `URLChangeEvent.commit` (src/utils.ts:333-336): apply the new URL
via the history API (one navigation). -/
def commit (w : World I α) (url : List (String × String))
    (behavior : UpdateHistoryBehavior) : World I α :=
  { w with url := url, navs := w.navs ++ [⟨url, behavior⟩] }

/-- `URLChangeEvent.trigger` (src/utils.ts:338-346). -/
def trigger (w : World I α) (param : String) (value : Option StrVal)
    (behavior : UpdateHistoryBehavior) : World I α :=
  commit w (modifySearchParam param value w.url) behavior

/-- `URLChangeEvent.batchTrigger` (src/utils.ts:348-356): all edits on
one URL object, a single commit. -/
def batchTrigger (w : World I α)
    (values : List (String × Option StrVal))
    (behavior : UpdateHistoryBehavior) : World I α :=
  commit w (values.foldl (fun u pv => modifySearchParam pv.1 pv.2 u) w.url)
    behavior

/-- `globals.cached`. -/
def cached (w : World I α) (param : String) : Option String :=
  alookup w.cachedByParam param

/-- `globals.cache`. -/
def cacheW (w : World I α) (param value : String) : World I α :=
  { w with cachedByParam := aset w.cachedByParam param value }

/-- `globals.safeSetHandler` (src/utils.ts:364-368): throws on key
conflict. -/
def safeSetHandler (w : World I α) (handler : Handler I α) :
    Except String (World I α) :=
  if (alookup w.handlerByParam handler.key).isSome then
    .error ("URL parameter key conflict detected: " ++ handler.key)
  else
    .ok { w with handlerByParam := aset w.handlerByParam handler.key handler }

/-- `globals.unsafeSetHandler` (src/utils.ts:369-371). -/
def unsafeSetHandler (w : World I α) (handler : Handler I α) : World I α :=
  { w with handlerByParam := aset w.handlerByParam handler.key handler }

/-- JS `arr[i] = v` (padding holes with a default element; holes never
arise in the scenarios the claims exercise). -/
def jsSet [Inhabited α] (l : List α) (i : Nat) (v : α) : List α :=
  if i < l.length then l.set i v
  else l ++ List.replicate (i - l.length) default ++ [v]

/-- JS `arr.splice(start, deleteCount)` restricted to deletion
(negative `deleteCount` deletes nothing). -/
def spliceTrunc (l : List α) (start : Nat) (delCount : Int) : List α :=
  if delCount ≤ 0 then l else l.take start ++ l.drop (start + delCount.toNat)

/-- The element-wise re-resolve loop of `trySetFromURL`
(src/utils.ts:404-406): positions whose raw string changed are
re-evaluated. -/
def diffAssign [Inhabited α] (h : Handler I α) (param : String) :
    List String → List String → List α → Nat → List α
  | [], _, arrv, _ => arrv
  | v :: vs, previous, arrv, i =>
    diffAssign h param vs previous
      (if previous.get? i = some v then arrv
       else jsSet arrv i (evaluate h v param (some i))) (i + 1)

/-- `cachify` applied to a write value the way `trySetURLParam` does
(src/utils.ts:422-424). -/
def cachifyVal (param : String) (value : StrVal) : String :=
  match value with
  | .many l => cachify param l
  | .one s => cachify param [s]

def isManyVal : StrVal → Bool
  | .many _ => true
  | .one _ => false

/-- `globals.trySetFromURL` (src/utils.ts:378-416).  Errors model the
source's thrown `"Expected multiple values"` plus the two shapes the
source leaves to crash at runtime (missing handler, non-array target in
the multiple branch). -/
def trySetFromURL [Inhabited α] (w : World I α) (state : URLState)
    (target : FieldVal α) (param : String)
    (handlerArg : Option (Handler I α)) (doCache : Bool) :
    Except String (World I α × FieldVal α) :=
  match stateGet state param with
  | none =>
    .ok ({ w with cachedByParam := adel w.cachedByParam param },
      match target with
      | .arr _ => .arr []
      | .scalar a => .scalar a)
  | some current =>
    match handlerArg <|> alookup w.handlerByParam param with
    | none => .error "missing handler"
    | some handler =>
      if isManyVal current ∧ ¬ supportsMultiple handler then
        .error "Expected multiple values"
      else if isManyVal current ∨ supportsMultiple handler then
        match target with
        | .scalar _ => .error "non-array target"
        | .arr arrv =>
          .ok
            ((if doCache then
                cacheW w param (cachify param
                  (match current with | .many l => l | .one s => [s]))
              else w),
             .arr (spliceTrunc
                (diffAssign handler param
                  (match current with | .many l => l | .one s => [s])
                  (uspGetAll (uspParse ((cached w param).getD "")) param)
                  arrv 0)
                (match current with | .many l => l | .one s => [s]).length
                ((uspGetAll (uspParse ((cached w param).getD ""))
                    param).length -
                  ((match current with
                    | .many l => l
                    | .one s => [s]).length : Int))))
      else
        match current with
        | .many _ => .error "unreachable"
        | .one s =>
          if uspGet (uspParse ((cached w param).getD "")) param =
              some s then
            .ok (w, target)
          else
            .ok ((if doCache then cacheW w param (cachify param [s])
                  else w),
              .scalar (evaluate handler s param none))

/-- `globals.trySetURLParam` (src/utils.ts:417-430). -/
def trySetURLParam (w : World I α) (param : String) (value : StrVal)
    (behavior : UpdateHistoryBehavior) : World I α :=
  if cached w param = some (cachifyVal param value) then w
  else trigger (cacheW w param (cachifyVal param value)) param
    (some value) behavior

/-- The filter-and-cache step of `trySetURLParams`
(src/utils.ts:433-440): skip an entry whose reconstructed query string
equals the write cache, otherwise cache it and keep it. -/
def tspsStep (acc : World I α × List (String × Option StrVal))
    (pv : String × StrVal) :
    World I α × List (String × Option StrVal) :=
  if cached acc.1 pv.1 = some (cachifyVal pv.1 pv.2) then acc
  else (cacheW acc.1 pv.1 (cachifyVal pv.1 pv.2),
    acc.2 ++ [(pv.1, some pv.2)])

/-- `globals.trySetURLParams` (src/utils.ts:431-446): filter each
entry against the write cache, caching the kept ones as the filter
runs, then one batched commit of the kept entries.  Its only caller
(`updatePrefix`) passes defined values. -/
def trySetURLParams (w : World I α) (values : List (String × StrVal))
    (behavior : UpdateHistoryBehavior) : World I α :=
  batchTrigger (values.foldl tspsStep (w, [])).1
    (values.foldl tspsStep (w, [])).2 behavior

/-- `globals.delete` (src/utils.ts:447-452): clear the debounce entry,
the write cache and the handler registration for a key, then issue one
replace-mode navigation removing that parameter. -/
def globalsDelete (w : World I α) (param : String) : World I α :=
  trigger
    { w with
      pendingDebounce := w.pendingDebounce.filter (fun p => ¬ p == param)
      cachedByParam := adel w.cachedByParam param
      handlerByParam := adel w.handlerByParam param }
    param none .replace

/-- The loop body of `tryProcessHistoricalKeys` (src/utils.ts:463-479):
optionally hydrate from each legacy key with the same handler (cache
untouched, `doCache = false`), and collect removal params by requested
history mode. -/
def tphkLoop [Inhabited α] (state : URLState) (key : String)
    (handler : Handler I α) :
    List PreviousKey → World I α → FieldVal α → List String →
    List String →
    Except String (World I α × FieldVal α × List String × List String)
  | [], w, t, pushes, repls => .ok (w, t, pushes, repls)
  | pk :: pks, w, t, pushes, repls =>
    match (if pk.apply.getD true then
        trySetFromURL w state t (validParam pk.fullname) (some handler)
          false
      else .ok (w, t)) with
    | .error e => .error e
    | .ok (w2, t2) =>
      if pk.remove.getD true then
        if pk.behavior.getD .replace = .push then
          tphkLoop state key handler pks w2 t2
            (pushes ++ [validParam pk.fullname]) repls
        else
          tphkLoop state key handler pks w2 t2 pushes
            (repls ++ [validParam pk.fullname])
      else tphkLoop state key handler pks w2 t2 pushes repls

/-- `tryProcessHistoricalKeys` (src/utils.ts:455-491): hydrate /
collect, then at most two batched removal navigations (push-mode batch
first, then replace-mode batch). -/
def tryProcessHistoricalKeys [Inhabited α] (w : World I α)
    (key : String) (handler : Handler I α) (state : URLState)
    (target : FieldVal α) :
    Except String (World I α × FieldVal α) :=
  match handler.previousKeys with
  | none => .ok (w, target)
  | some pks =>
    match tphkLoop state key handler pks w target [] [] with
    | .error e => .error e
    | .ok (w1, t1, pushes, repls) =>
      .ok
        ((if repls.isEmpty then
            (if pushes.isEmpty then w1
             else batchTrigger w1 (pushes.map fun p => (p, none)) .push)
          else
            batchTrigger
              (if pushes.isEmpty then w1
               else batchTrigger w1 (pushes.map fun p => (p, none)) .push)
              (repls.map fun p => (p, none)) .replace),
         t1)

/-- `setupEffect` (src/utils.ts:562-592), as the state transitions it
performs during binding setup for one field: resolve the handler,
register it (may fail fatally on key conflict), record the key, process
legacy keys, hydrate from the current URL.  The reactive write-back
subscription it also installs is not part of the state model. -/
def setupEffect [Inhabited α] (dflt : DefaultFns I α) (w : World I α)
    (handlers : ParameterHandler I α) (key : String)
    (options : Option (Options I α)) (state : URLState)
    (target : FieldVal α) (paramByKey : List (String × String)) :
    Except String
      (World I α × FieldVal α × List (String × String)) :=
  match safeSetHandler w (verbosify dflt handlers key options) with
  | .error e => .error e
  | .ok w1 =>
    match tryProcessHistoricalKeys w1 key
        (verbosify dflt handlers key options) state target with
    | .error e => .error e
    | .ok (w2, t2) =>
      match trySetFromURL w2 state t2 (verbosify dflt handlers key
          options).key (some (verbosify dflt handlers key options))
          true with
      | .error e => .error e
      | .ok (w3, t3) =>
        .ok (w3, t3,
          aset paramByKey key (verbosify dflt handlers key options).key)

/-- `dispose` (src/utils.ts:553-560): run the global delete routine on
every owned param (in `paramByKey` value order). -/
def dispose (w : World I α) (params : List String) : World I α :=
  params.foldl globalsDelete w

/-- The per-field loop of `updatePrefix` (src/utils.ts:595-606):
rewrite the handler's key from the field name, delete the old key
(navigating!), re-register under the new key, and collect the batched
write of the new key's serialized current value. -/
def updatePrefixLoop [Inhabited α] (target : String → FieldVal α)
    (pfx : String) :
    List (String × String) → World I α → List (String × String) →
    List (String × StrVal) →
    Except String
      (World I α × List (String × String) × List (String × StrVal))
  | [], w, pbk, updates => .ok (w, pbk, updates)
  | (key, param) :: rest, w, pbk, updates =>
    match alookup w.handlerByParam param with
    | none => .error "missing handler"
    | some handler =>
      updatePrefixLoop target pfx rest
        (unsafeSetHandler (globalsDelete w param)
          { handler with key := validParam (pfx ++ key) })
        (aset pbk key (validParam (pfx ++ key)))
        (updates ++ [(validParam (pfx ++ key),
          parameterize (target key) { handler with
            key := validParam (pfx ++ key) })])

/-- `updatePrefix` (src/utils.ts:594-608). -/
def updatePrefix [Inhabited α] (w : World I α)
    (paramByKey : List (String × String)) (target : String → FieldVal α)
    (pfx : String) :
    Except String (World I α × List (String × String)) :=
  match updatePrefixLoop target pfx paramByKey w paramByKey [] with
  | .error e => .error e
  | .ok (w1, pbk, updates) =>
    .ok (trySetURLParams w1 updates .replace, pbk)

/-! ## `MappedDebouncer` (src/debounce), timed trace model

Timer semantics: `setTimeout(f, ms)` at absolute time `t` schedules `f`
at `t + max(ms, 0)`.  A pending key holds an idle deadline and a
max-wait deadline; whichever is earliest fires `flush`, which runs the
callback once and clears both (the later timer finds no callback).
`enqueue` first calls `clear(key)` — cancelling BOTH timers — then
re-arms both relative to the enqueue time. -/

structure DebEntry where
  callbackId : Nat
  idleAt : Nat
  maxAt : Nat
deriving DecidableEq

structure DebState where
  entries : List (String × DebEntry)
  flushLog : List (String × Nat × Nat)
deriving DecidableEq

/-- `MappedDebouncer.ValidateConfig` (src/debounce:56-59). -/
def ValidateConfig (config : DebounceConfig) : Except String Unit :=
  if config.maxWaitMs < config.idleMs then
    .error "maxWaitMs must be greater than or equal to idleMs"
  else .ok ()

def dueTime (e : DebEntry) : Nat := min e.idleAt e.maxAt

/-- Fire every pending timer due by `now`: each such key's callback
runs exactly once, at its earliest deadline, and the entry is
cleared. -/
def fireDue (now : Nat) (st : DebState) : DebState :=
  { entries := st.entries.filter (fun ke => ¬ dueTime ke.2 ≤ now)
    flushLog := st.flushLog ++
      (st.entries.filter (fun ke => dueTime ke.2 ≤ now)).map
        (fun ke => (ke.1, ke.2.callbackId, dueTime ke.2)) }

/-- `MappedDebouncer.enqueue` at absolute time `t`
(src/debounce:37-49): `clear(key)` cancels any pending entry —
including its max-wait timer — then the idle and max-wait timers are
both re-armed relative to `t`. -/
def debEnqueue (st : DebState) (key : String) (id : Nat)
    (config : DebounceConfig) (t : Nat) : DebState :=
  { st with entries :=
      (st.entries.filter (fun ke => ¬ ke.1 == key)) ++
        [(key, ⟨id, t + config.idleMs.toNat, t + config.maxWaitMs.toNat⟩)] }

/-- Run a trace of timestamped enqueues `(t, key, callbackId, config)`
(times nondecreasing), firing due timers before each event and finally
everything due by `endTime`. -/
def debRun (events : List (Nat × String × Nat × DebounceConfig))
    (endTime : Nat) : DebState :=
  fireDue endTime
    (events.foldl (fun st ev =>
      debEnqueue (fireDue ev.1 st) ev.2.1 ev.2.2.1 ev.2.2.2 ev.1)
      ⟨[], []⟩)

/-- The C2 trace: seven enqueues of one key, 40 ms apart (each within
the 50 ms idle window), `idleMs = 50`, `maxWaitMs = 200`. -/
def c2Trace : List (Nat × String × Nat × DebounceConfig) :=
  [(0, "k", 1, ⟨50, 200⟩), (40, "k", 2, ⟨50, 200⟩),
   (80, "k", 3, ⟨50, 200⟩), (120, "k", 4, ⟨50, 200⟩),
   (160, "k", 5, ⟨50, 200⟩), (200, "k", 6, ⟨50, 200⟩),
   (240, "k", 7, ⟨50, 200⟩)]

theorem alookup_aset_self (l : List (String × β)) (k : String) (v : β) :
    alookup (aset l k v) k = some v := by
  induction l with
  | nil => simp [aset, alookup, List.find?]
  | cons p l ih =>
    by_cases h : p.1 = k
    · rw [aset, if_pos h]
      simp [alookup, List.find?]
    · rw [aset, if_neg h]
      simp only [alookup, List.find?_cons] at ih ⊢
      rw [show (p.1 == k) = false from by simp [h]]
      exact ih

theorem alookup_aset_ne (l : List (String × β)) {k q : String} (v : β)
    (h : q ≠ k) : alookup (aset l k v) q = alookup l q := by
  induction l with
  | nil =>
    simp only [aset, alookup, List.find?]
    rw [show (k == q) = false from by simp [Ne.symm h]]
  | cons p l ih =>
    by_cases hp : p.1 = k
    · rw [aset, if_pos hp]
      simp only [alookup, List.find?_cons]
      rw [show (k == q) = false from by simp [Ne.symm h],
        show (p.1 == q) = false from by simp [hp, Ne.symm h]]
    · rw [aset, if_neg hp]
      simp only [alookup, List.find?_cons] at ih ⊢
      by_cases hq : p.1 = q
      · simp [hq]
      · rw [show (p.1 == q) = false from by simp [hq]]
        exact ih

theorem alookup_adel_self (l : List (String × β)) (k : String) :
    alookup (adel l k) k = none := by
  induction l with
  | nil => rfl
  | cons p l ih =>
    by_cases h : p.1 = k
    · rw [adel, List.filter_cons]
      rw [if_neg (by simp [h])]
      exact ih
    · rw [adel, List.filter_cons, if_pos (by simp [h])]
      simp only [alookup, List.find?_cons]
      rw [show (p.1 == k) = false from by simp [h]]
      exact ih

theorem alookup_adel_ne (l : List (String × β)) {k q : String}
    (h : q ≠ k) : alookup (adel l k) q = alookup l q := by
  induction l with
  | nil => rfl
  | cons p l ih =>
    by_cases hp : p.1 = k
    · rw [adel, List.filter_cons, if_neg (by simp [hp])]
      simp only [alookup, List.find?_cons]
      rw [show (p.1 == q) = false from by simp [hp, Ne.symm h]]
      exact ih
    · rw [adel, List.filter_cons, if_pos (by simp [hp])]
      simp only [alookup, List.find?_cons] at ih ⊢
      by_cases hq : p.1 = q
      · simp [hq]
      · rw [show (p.1 == q) = false from by simp [hq]]
        exact ih

theorem alookup_filter_none (l : List (String × β)) (p : String × β → Bool)
    (k : String) (h : alookup l k = none) :
    alookup (l.filter p) k = none := by
  induction l with
  | nil => rfl
  | cons q l ih =>
    simp only [alookup, List.find?_cons] at h
    rcases hq : (q.1 == k) with _ | _
    · rw [hq] at h
      rw [List.filter_cons]
      split
      · simp only [alookup, List.find?_cons, hq]
        exact ih h
      · exact ih h
    · rw [hq] at h
      simp at h
  
theorem aset_of_lookup_eq {l : List (String × β)} {k : String} {v : β}
    (h : alookup l k = some v) : aset l k v = l := by
  induction l with
  | nil => simp [alookup, List.find?] at h
  | cons p l ih =>
    simp only [alookup, List.find?_cons] at h
    by_cases hp : p.1 = k
    · rw [aset, if_pos hp]
      rw [show (p.1 == k) = true from by simp [hp]] at h
      simp only [Option.map_some', Option.some.injEq] at h
      rw [← h, ← hp]
    · rw [aset, if_neg hp]
      rw [show (p.1 == k) = false from by simp [hp]] at h
      rw [ih h]

theorem uspDelete_filter_self (u : List (String × String)) (k : String) :
    (uspDelete u k).filter (fun p => p.1 == k) = [] := by
  induction u with
  | nil => rfl
  | cons p u ih =>
    rw [uspDelete, List.filter_cons]
    by_cases h : p.1 = k
    · rw [if_neg (by simp [h])]
      exact ih
    · rw [if_pos (by simp [h]), List.filter_cons, if_neg (by simp [h])]
      exact ih

theorem uspDelete_filter_ne (u : List (String × String)) {k q : String}
    (h : q ≠ k) :
    (uspDelete u k).filter (fun p => p.1 == q) =
      u.filter (fun p => p.1 == q) := by
  induction u with
  | nil => rfl
  | cons p u ih =>
    rw [uspDelete, List.filter_cons]
    by_cases hp : p.1 = k
    · rw [if_neg (by simp [hp]), List.filter_cons,
        if_neg (by simp [hp, Ne.symm h])]
      exact ih
    · rw [if_pos (by simp [hp]), List.filter_cons, List.filter_cons]
      by_cases hq : p.1 = q
      · rw [if_pos (by simp [hq]), if_pos (by simp [hq])]
        exact congrArg (p :: ·) ih
      · rw [if_neg (by simp [hq]), if_neg (by simp [hq])]
        exact ih

theorem uspSet_filter_self (u : List (String × String)) (k v : String) :
    (uspSet u k v).filter (fun p => p.1 == k) = [(k, v)] := by
  induction u with
  | nil => simp [uspSet]
  | cons p u ih =>
    rw [uspSet]
    by_cases h : p.1 = k
    · rw [if_pos h, List.filter_cons, if_pos (by simp),
        uspDelete_filter_self]
    · rw [if_neg h, List.filter_cons, if_neg (by simp [h])]
      exact ih

theorem uspSet_filter_ne (u : List (String × String)) {k q : String}
    (v : String) (h : q ≠ k) :
    (uspSet u k v).filter (fun p => p.1 == q) =
      u.filter (fun p => p.1 == q) := by
  induction u with
  | nil => simp [uspSet, Ne.symm h]
  | cons p u ih =>
    rw [uspSet]
    by_cases hp : p.1 = k
    · rw [if_pos hp, List.filter_cons, if_neg (by simp [Ne.symm h]),
        List.filter_cons, if_neg (by simp [hp, Ne.symm h]),
        uspDelete_filter_ne _ h]
    · rw [if_neg hp, List.filter_cons, List.filter_cons]
      by_cases hq : p.1 = q
      · rw [if_pos (by simp [hq]), if_pos (by simp [hq])]
        exact congrArg (p :: ·) ih
      · rw [if_neg (by simp [hq]), if_neg (by simp [hq])]
        exact ih

theorem foldl_uspAppend (l : List String) (u0 : List (String × String))
    (k : String) :
    l.foldl (fun u v => uspAppend u k v) u0 =
      u0 ++ l.map (fun v => (k, v)) := by
  induction l generalizing u0 with
  | nil => simp
  | cons v vs ih =>
    rw [List.foldl_cons, ih, uspAppend]
    simp

/-- Group a parameter's raw values the way `getURLState` does. -/
def groupOf : List String → Option StrVal
  | [] => none
  | [v] => some (.one v)
  | v :: vs => some (.many (v :: vs))

def combineGroup : Option StrVal → List String → Option StrVal
  | cur, [] => cur
  | none, vs => groupOf vs
  | some (.one v), vs => some (.many (v :: vs))
  | some (.many l), vs => some (.many (l ++ vs))

theorem stateGet_stateStep_self (st : URLState) (kv : String × String) :
    stateGet (stateStep st kv) kv.1 =
      some (match stateGet st kv.1 with
        | none => StrVal.one kv.2
        | some (.one v0) => StrVal.many [v0, kv.2]
        | some (.many l) => StrVal.many (l ++ [kv.2])) := by
  unfold stateStep
  cases h : alookup st kv.1 with
  | none =>
    rw [show stateGet st kv.1 = none from h]
    exact alookup_aset_self _ _ _
  | some sv =>
    rw [show stateGet st kv.1 = some sv from h]
    cases sv with
    | one v0 => exact alookup_aset_self _ _ _
    | many l => exact alookup_aset_self _ _ _

theorem stateGet_stateStep_ne (st : URLState) (kv : String × String)
    {k : String} (h : k ≠ kv.1) :
    stateGet (stateStep st kv) k = stateGet st k := by
  unfold stateStep
  cases halo : alookup st kv.1 with
  | none => exact alookup_aset_ne _ _ h
  | some sv => cases sv with
    | one v0 => exact alookup_aset_ne _ _ h
    | many l => exact alookup_aset_ne _ _ h

theorem getURLState_go (pairs : List (String × String)) :
    ∀ (st : URLState) (k : String),
      stateGet (pairs.foldl stateStep st) k =
        combineGroup (stateGet st k) (uspGetAll pairs k) := by
  induction pairs with
  | nil =>
    intro st k
    simp only [List.foldl_nil]
    cases h : stateGet st k with
    | none => rfl
    | some sv => cases sv <;> rfl
  | cons kv rest ih =>
    intro st k
    rw [List.foldl_cons, ih]
    by_cases hk : kv.1 = k
    · subst hk
      rw [show uspGetAll (kv :: rest) kv.1 =
        kv.2 :: uspGetAll rest kv.1 from by
          unfold uspGetAll
          rw [List.filter_cons, if_pos (by simp)]
          rfl]
      rw [stateGet_stateStep_self]
      cases h : stateGet st kv.1 with
      | none =>
        cases hrest : uspGetAll rest kv.1 with
        | nil => rfl
        | cons a as => rfl
      | some sv =>
        cases sv with
        | one v0 =>
          cases hrest : uspGetAll rest kv.1 with
          | nil => rfl
          | cons a as => rfl
        | many l =>
          cases hrest : uspGetAll rest kv.1 with
          | nil => simp [combineGroup]
          | cons a as => simp [combineGroup]
    · rw [show uspGetAll (kv :: rest) k = uspGetAll rest k from by
        unfold uspGetAll
        rw [List.filter_cons, if_neg (by simp [hk])]]
      rw [stateGet_stateStep_ne st kv (fun e => hk e.symm)]

theorem getURLState_spec (pairs : List (String × String)) (k : String) :
    stateGet (getURLState pairs) k = groupOf (uspGetAll pairs k) := by
  unfold getURLState
  rw [getURLState_go pairs [] k]
  cases h : uspGetAll pairs k with
  | nil => rfl
  | cons a as => cases as <;> rfl

theorem trySetFromURL_frame [Inhabited α] {w : World I α}
    {state : URLState} {target : FieldVal α} {param : String}
    {harg : Option (Handler I α)} {doCache : Bool} {w' : World I α}
    {t' : FieldVal α}
    (h : trySetFromURL w state target param harg doCache = .ok (w', t')) :
    w'.navs = w.navs ∧ w'.url = w.url ∧
      w'.handlerByParam = w.handlerByParam ∧
      w'.pendingDebounce = w.pendingDebounce := by
  unfold trySetFromURL at h
  repeat' split at h
  all_goals simp only [Except.ok.injEq, Prod.mk.injEq, reduceCtorEq]
    at h
  all_goals try exact h.elim
  all_goals obtain ⟨hw, ht⟩ := h
  all_goals subst hw
  all_goals simp [cacheW]

theorem uspGetAll_uspSet (url : List (String × String)) (param s : String) :
    uspGetAll (uspSet url param s) param = [s] := by
  unfold uspGetAll
  rw [uspSet_filter_self]
  rfl

theorem uspGetAll_modifyMany (url : List (String × String))
    (param : String) (l : List String) :
    uspGetAll (modifySearchParam param (some (.many l)) url) param = l := by
  unfold modifySearchParam
  show uspGetAll (l.foldl (fun u v => uspAppend u param v)
    (uspDelete url param)) param = l
  rw [foldl_uspAppend]
  unfold uspGetAll
  rw [List.filter_append]
  rw [uspDelete_filter_self]
  rw [show (l.map fun v => (param, v)).filter (fun p => p.1 == param) =
    l.map fun v => (param, v) from by
      induction l with
      | nil => rfl
      | cons v vs ih => rw [List.map_cons, List.filter_cons,
          if_pos (by simp), ih]]
  simp

theorem uspGetAll_uspDelete (url : List (String × String))
    (param : String) :
    uspGetAll (uspDelete url param) param = [] := by
  unfold uspGetAll
  rw [uspDelete_filter_self]
  rfl

/-! ## Claim theorems -/

/-- C2: the claim says the max-wait timer is absolute (armed at the
first enqueue of a burst, not postponed by later enqueues), so any
enqueue sequence flushes no later than `maxWaitMs` after the first
enqueue.  The code's `enqueue` calls `clear(key)` first, which cancels
the max-wait timer too, so both timers are re-armed on every enqueue:
with `idleMs = 50, maxWaitMs = 200` and seven enqueues 40 ms apart
(t = 0 … 240), nothing has flushed by t = 240 — past the claimed
t = 200 bound — and the single flush happens at t = 290 via the idle
timer.  (The configuration is valid: `maxWaitMs ≥ idleMs`.) -/
theorem C2_maxwait_timer_is_postponed :
    (debRun c2Trace 240).flushLog = [] ∧
    (debRun c2Trace 290).flushLog = [("k", 7, 290)] ∧
    ValidateConfig ⟨50, 200⟩ = .ok () := by
  refine ⟨by decide, by decide, rfl⟩

/-- C5: two successive `trySetURLParam` calls whose values reconstruct
to the same exact query string produce exactly one navigation — the
first (genuine) write caches and commits once, and the second finds the
cache equal and is a complete no-op. -/
theorem C5_idempotent_write_suppression (w : World I α) (param : String)
    (v1 v2 : StrVal) (b1 b2 : UpdateHistoryBehavior)
    (hmiss : ¬ cached w param = some (cachifyVal param v1))
    (heq : cachifyVal param v1 = cachifyVal param v2) :
    trySetURLParam (trySetURLParam w param v1 b1) param v2 b2 =
      trySetURLParam w param v1 b1 ∧
    (trySetURLParam w param v1 b1).navs =
      w.navs ++ [⟨modifySearchParam param (some v1) w.url, b1⟩] := by
  have h1 : trySetURLParam w param v1 b1 =
      trigger (cacheW w param (cachifyVal param v1)) param (some v1) b1 := by
    unfold trySetURLParam
    rw [if_neg hmiss]
  constructor
  · rw [h1]
    unfold trySetURLParam
    rw [if_pos (by
      show cached (trigger (cacheW w param (cachifyVal param v1)) param
        (some v1) b1) param = some (cachifyVal param v2)
      rw [show cached (trigger (cacheW w param (cachifyVal param v1))
        param (some v1) b1) param =
        alookup (aset w.cachedByParam param (cachifyVal param v1)) param
        from rfl]
      rw [alookup_aset_self, heq])]
  · rw [h1]
    rfl

/-- C5 witness: a concrete first genuine write followed by an
identically-reconstructing second write. -/
theorem C5_witness :
    (¬ cached (⟨[], [], [], [], []⟩ : World Unit Unit) "p" =
      some (cachifyVal "p" (.one "1"))) ∧
    (trySetURLParam (trySetURLParam
        (⟨[], [], [], [], []⟩ : World Unit Unit) "p" (.one "1") .push)
        "p" (.one "1") .push =
      trySetURLParam (⟨[], [], [], [], []⟩ : World Unit Unit) "p"
        (.one "1") .push ∧
    (trySetURLParam (⟨[], [], [], [], []⟩ : World Unit Unit) "p"
        (.one "1") .push).navs =
      [] ++ [⟨modifySearchParam "p" (some (.one "1")) [], .push⟩]) := by
  refine ⟨by decide, C5_idempotent_write_suppression _ _ _ _ _ _
    (by decide) rfl⟩

/-- C8: when a bound key is entirely absent from the snapshot,
`trySetFromURL` clears that key's write-cache entry, truncates an
array-valued field to empty, leaves a non-array field untouched, and
touches nothing else (no navigation, no URL change, no other cache
entry). -/
theorem C8_absent_key_reset [Inhabited α] (w : World I α)
    (state : URLState) (target : FieldVal α) (param : String)
    (harg : Option (Handler I α)) (doCache : Bool)
    (habs : stateGet state param = none) :
    ∃ w' t', trySetFromURL w state target param harg doCache =
        .ok (w', t') ∧
      alookup w'.cachedByParam param = none ∧
      (∀ q, q ≠ param →
        alookup w'.cachedByParam q = alookup w.cachedByParam q) ∧
      w'.url = w.url ∧ w'.navs = w.navs ∧
      w'.handlerByParam = w.handlerByParam ∧
      w'.pendingDebounce = w.pendingDebounce ∧
      (∀ l, target = .arr l → t' = .arr []) ∧
      (∀ a, target = .scalar a → t' = .scalar a) := by
  refine ⟨{ w with cachedByParam := adel w.cachedByParam param },
    (match target with
      | .arr _ => .arr []
      | .scalar a => .scalar a), ?_, alookup_adel_self _ _,
    fun q hq => alookup_adel_ne _ hq, rfl, rfl, rfl, rfl, ?_, ?_⟩
  · unfold trySetFromURL
    rw [habs]
  · intro l hl
    subst hl
    rfl
  · intro a ha
    subst ha
    rfl

/-- C8 witness at an array-valued field. -/
theorem C8_witness :
    stateGet ([] : URLState) "p" = none ∧
    ∃ (w' : World Unit Unit) (t' : FieldVal Unit),
      trySetFromURL (⟨[("p", "x")], [], [], [("p", "c")], []⟩ :
          World Unit Unit) [] (.arr [(), ()]) "p" none true =
        .ok (w', t') ∧
      alookup w'.cachedByParam "p" = none ∧
      (∀ q, q ≠ "p" →
        alookup w'.cachedByParam q =
          alookup ([("p", "c")] : List (String × String)) q) ∧
      w'.url = [("p", "x")] ∧ w'.navs = [] ∧
      w'.handlerByParam = [] ∧ w'.pendingDebounce = [] ∧
      (∀ l, (FieldVal.arr [(), ()] : FieldVal Unit) = .arr l →
        t' = .arr []) ∧
      (∀ a, (FieldVal.arr [(), ()] : FieldVal Unit) = .scalar a →
        t' = .scalar a) := by
  exact ⟨rfl, C8_absent_key_reset _ _ _ _ _ _ rfl⟩

/-- C6: registering a second handler whose escaped key is already in
the process-wide registry makes binding setup throw the synchronous
key-conflict error (from `safeSetHandler`, before the new handler is
registered or used). -/
theorem C6_duplicate_key_conflict [Inhabited α] (dflt : DefaultFns I α)
    (w : World I α) (handlers : ParameterHandler I α) (key : String)
    (options : Option (Options I α)) (state : URLState)
    (target : FieldVal α) (pbk : List (String × String))
    (hconf : (alookup w.handlerByParam
      (verbosify dflt handlers key options).key).isSome = true) :
    setupEffect dflt w handlers key options state target pbk =
      .error ("URL parameter key conflict detected: " ++
        (verbosify dflt handlers key options).key) := by
  unfold setupEffect safeSetHandler
  rw [if_pos hconf]

def c6Handler : Handler Unit Unit :=
  { resolve := fun _ _ _ => ()
    key := "id"
    entries := .single
    debounce := .useGlobal
    previousKeys := none
    history := .push
    deserialize := fun _ => ()
    serialize := fun _ => ""
    encode := id
    decode := id }

def c6Dflt : DefaultFns Unit Unit :=
  { encode := id
    decode := id
    deserialize := fun _ => ()
    serialize := fun _ => "" }

/-- C6 witness: a second registration under the already-taken key
`"id"`. -/
theorem C6_witness :
    (alookup (⟨[], [], [("id", c6Handler)], [], []⟩ :
        World Unit Unit).handlerByParam
      (verbosify c6Dflt (.fn fun _ _ _ => ()) "id" none).key).isSome =
        true ∧
    setupEffect c6Dflt
        (⟨[], [], [("id", c6Handler)], [], []⟩ : World Unit Unit)
        (.fn fun _ _ _ => ()) "id" none [] (.scalar ()) [] =
      .error ("URL parameter key conflict detected: " ++
        (verbosify c6Dflt (.fn fun _ _ _ => ()) "id" none).key) := by
  refine ⟨by decide, C6_duplicate_key_conflict _ _ _ _ _ _ _ _
    (by decide)⟩

/-- C9: under the default pipeline (serialize = JSON.stringify, encode
= encodeURIComponent, decode = decodeURIComponent, deserialize =
JSON.parse with "undefined" mapped to the absent value) and an identity
resolve, every JS-representable value round-trips:
`resolve (deserialize (decode (encode (serialize v)))) = v`. -/
theorem C9_default_pipeline_roundtrip (v : Json)
    (h : jsAccepted v = true) :
    defaultRoundtrip id v = some (some v) :=
  defaultRoundtrip_id v

def c9Val : Json :=
  .obj [("a", .num 1), ("b", .arr [.str "x", .null, .bool true]),
    ("c", .num (-42))]

/-- C9 witness on a nested object value. -/
theorem C9_witness :
    jsAccepted c9Val = true ∧ defaultRoundtrip id c9Val = some (some c9Val) :=
  ⟨by decide, C9_default_pipeline_roundtrip c9Val (by decide)⟩

theorem dispose_preserves (params : List String) :
    ∀ (w : World I α) (p : String),
      alookup w.cachedByParam p = none →
      alookup w.handlerByParam p = none →
      p ∉ w.pendingDebounce →
      alookup (dispose w params).cachedByParam p = none ∧
      alookup (dispose w params).handlerByParam p = none ∧
      p ∉ (dispose w params).pendingDebounce := by
  induction params with
  | nil => exact fun w p h1 h2 h3 => ⟨h1, h2, h3⟩
  | cons q qs ih =>
    intro w p h1 h2 h3
    show alookup (dispose (globalsDelete w q) qs).cachedByParam p =
        none ∧ _ ∧ _
    refine ih (globalsDelete w q) p ?_ ?_ ?_
    · show alookup (adel w.cachedByParam q) p = none
      by_cases hpq : p = q
      · subst hpq
        exact alookup_adel_self _ _
      · rw [alookup_adel_ne _ hpq]
        exact h1
    · show alookup (adel w.handlerByParam q) p = none
      by_cases hpq : p = q
      · subst hpq
        exact alookup_adel_self _ _
      · rw [alookup_adel_ne _ hpq]
        exact h2
    · intro hmem
      exact h3 (List.mem_filter.mp hmem).1

/-- C10: `dispose` issues, for every owned param (beyond clearing its
debounce, cache and handler entries), one replace-mode navigation
removing that param from the URL — one navigation per key, always
replace mode regardless of the handler's configured history. -/
theorem C10_dispose_navigates_per_key (w : World I α)
    (params : List String) :
    ∃ urls : List (List (String × String)),
      urls.length = params.length ∧
      (dispose w params).navs =
        w.navs ++ (params.zip urls).map (fun pu => ⟨pu.2, .replace⟩) ∧
      (∀ pu ∈ params.zip urls,
        pu.2.filter (fun q => q.1 == pu.1) = []) ∧
      (∀ p ∈ params,
        alookup (dispose w params).cachedByParam p = none ∧
        alookup (dispose w params).handlerByParam p = none ∧
        p ∉ (dispose w params).pendingDebounce) := by
  induction params generalizing w with
  | nil => exact ⟨[], rfl, by simp [dispose], by simp, by simp⟩
  | cons q qs ih =>
    obtain ⟨urls, hlen, hnavs, hurls, hclear⟩ := ih (globalsDelete w q)
    refine ⟨uspDelete w.url q :: urls, by simp [hlen], ?_, ?_, ?_⟩
    · show (dispose (globalsDelete w q) qs).navs = _
      rw [hnavs]
      rw [show (globalsDelete w q).navs =
        w.navs ++ [⟨uspDelete w.url q, .replace⟩] from rfl]
      simp [List.zip_cons_cons]
    · intro pu hpu
      rw [List.zip_cons_cons] at hpu
      rcases List.mem_cons.mp hpu with h | h
      · subst h
        exact uspDelete_filter_self _ _
      · exact hurls pu h
    · intro p hp
      rcases List.mem_cons.mp hp with h | h
      · subst h
        show alookup (dispose (globalsDelete w p) qs).cachedByParam p =
            none ∧ _ ∧ _
        refine dispose_preserves qs (globalsDelete w p) p
          (alookup_adel_self _ _) (alookup_adel_self _ _) ?_
        intro hmem
        have := (List.mem_filter.mp hmem).2
        simp at this
      · show alookup (dispose (globalsDelete w q) qs).cachedByParam p =
            none ∧ _ ∧ _
        exact hclear p h

theorem modifySearchParam_filter_ne {k q : String} (h : q ≠ k)
    (val : Option StrVal) (u : List (String × String)) :
    (modifySearchParam k val u).filter (fun p => p.1 == q) =
      u.filter (fun p => p.1 == q) := by
  match val with
  | none => exact uspDelete_filter_ne u h
  | some (.one s) => exact uspSet_filter_ne u s h
  | some (.many l) =>
    show ((l.foldl (fun u v => uspAppend u k v)
      (uspDelete u k)).filter (fun p => p.1 == q)) = _
    rw [foldl_uspAppend, List.filter_append, uspDelete_filter_ne u h]
    rw [show (l.map fun v => (k, v)).filter (fun p => p.1 == q) = []
      from by
        induction l with
        | nil => rfl
        | cons v vs ih =>
          rw [List.map_cons, List.filter_cons,
            if_neg (by simp [Ne.symm h]), ih]]
    simp

theorem batch_fold_filter (vals : List (String × Option StrVal))
    (q : String) (h : ∀ pv ∈ vals, pv.1 ≠ q) :
    ∀ u : List (String × String), u.filter (fun p => p.1 == q) = [] →
    (vals.foldl (fun u pv => modifySearchParam pv.1 pv.2 u) u).filter
      (fun p => p.1 == q) = [] := by
  induction vals with
  | nil => exact fun u hu => hu
  | cons pv rest ih =>
    intro u hu
    refine ih (fun x hx => h x (List.mem_cons_of_mem _ hx)) _ ?_
    rw [modifySearchParam_filter_ne
      (Ne.symm (h pv (List.mem_cons_self _ _))) pv.2 u]
    exact hu

theorem tspsFold_frame (vals : List (String × StrVal)) :
    ∀ acc : World I α × List (String × Option StrVal),
      (vals.foldl tspsStep acc).1.navs = acc.1.navs ∧
      (vals.foldl tspsStep acc).1.url = acc.1.url ∧
      (vals.foldl tspsStep acc).1.handlerByParam =
        acc.1.handlerByParam ∧
      (vals.foldl tspsStep acc).1.pendingDebounce =
        acc.1.pendingDebounce ∧
      (∀ x ∈ (vals.foldl tspsStep acc).2,
        x.1 ∈ acc.2.map Prod.fst ∨ x.1 ∈ vals.map Prod.fst) := by
  induction vals with
  | nil =>
    intro acc
    exact ⟨rfl, rfl, rfl, rfl, fun x hx =>
      .inl (List.mem_map_of_mem _ hx)⟩
  | cons pv rest ih =>
    intro acc
    obtain ⟨h1, h2, h3, h4, h5⟩ := ih (tspsStep acc pv)
    have hstep : (tspsStep acc pv).1.navs = acc.1.navs ∧
        (tspsStep acc pv).1.url = acc.1.url ∧
        (tspsStep acc pv).1.handlerByParam = acc.1.handlerByParam ∧
        (tspsStep acc pv).1.pendingDebounce = acc.1.pendingDebounce := by
      unfold tspsStep
      split
      · exact ⟨rfl, rfl, rfl, rfl⟩
      · exact ⟨rfl, rfl, rfl, rfl⟩
    refine ⟨by rw [List.foldl_cons, h1, hstep.1],
      by rw [List.foldl_cons, h2, hstep.2.1],
      by rw [List.foldl_cons, h3, hstep.2.2.1],
      by rw [List.foldl_cons, h4, hstep.2.2.2], ?_⟩
    intro x hx
    rw [List.foldl_cons] at hx
    rcases h5 x hx with hmem | hmem
    · have : (tspsStep acc pv).2 = acc.2 ∨
          (tspsStep acc pv).2 = acc.2 ++ [(pv.1, some pv.2)] := by
        unfold tspsStep
        split
        · exact .inl rfl
        · exact .inr rfl
      rcases this with he | he
      · rw [he] at hmem
        exact .inl hmem
      · rw [he, List.map_append] at hmem
        rcases List.mem_append.mp hmem with hm | hm
        · exact .inl hm
        · simp at hm
          exact .inr (by simp [hm])
    · exact .inr (List.mem_cons_of_mem _ hmem)

theorem updatePrefixLoop_spec [Inhabited α] (target : String → FieldVal α)
    (pfx : String) (hfun : String × String → Handler I α) :
    ∀ (items : List (String × String)) (w : World I α)
      (pbk : List (String × String)) (updates : List (String × StrVal)),
      (items.map Prod.snd).Nodup →
      (∀ kp ∈ items, ∀ kq ∈ items, validParam (pfx ++ kp.1) ≠ kq.2) →
      (∀ kp ∈ items, alookup w.handlerByParam kp.2 = some (hfun kp)) →
      ∃ w' pbk',
        updatePrefixLoop target pfx items w pbk updates =
          .ok (w', pbk',
            updates ++ items.map (fun kp => (validParam (pfx ++ kp.1),
              parameterize (target kp.1)
                { hfun kp with key := validParam (pfx ++ kp.1) }))) ∧
        (∃ urls : List (List (String × String)),
          urls.length = items.length ∧
          w'.navs = w.navs ++ urls.map (fun u => ⟨u, .replace⟩)) ∧
        (∀ q, w.url.filter (fun p => p.1 == q) = [] →
          w'.url.filter (fun p => p.1 == q) = []) ∧
        (∀ kp ∈ items, w'.url.filter (fun p => p.1 == kp.2) = []) ∧
        (∀ q, alookup w.cachedByParam q = none →
          alookup w'.cachedByParam q = none) ∧
        (∀ k, k ∉ items.map Prod.fst → alookup pbk' k = alookup pbk k) ∧
        ((items.map Prod.fst).Nodup → ∀ kp ∈ items,
          alookup pbk' kp.1 = some (validParam (pfx ++ kp.1))) := by
  intro items
  induction items with
  | nil =>
    intro w pbk updates _ _ _
    exact ⟨w, pbk, by simp [updatePrefixLoop], ⟨[], rfl, by simp⟩,
      fun q h => h, by simp, fun q h => h, fun k _ => rfl,
      fun _ kp h => absurd h (List.not_mem_nil _)⟩
  | cons kp0 rest ih =>
    obtain ⟨key, param⟩ := kp0
    intro w pbk updates hsnd hfresh hh
    have hlookup : alookup w.handlerByParam param =
        some (hfun (key, param)) :=
      hh (key, param) (List.mem_cons_self _ _)
    have hsnd' : (rest.map Prod.snd).Nodup := by
      rw [List.map_cons] at hsnd
      exact (List.nodup_cons.mp hsnd).2
    have hparam_notin : param ∉ rest.map Prod.snd := by
      rw [List.map_cons] at hsnd
      exact (List.nodup_cons.mp hsnd).1
    have hfresh' : ∀ kp ∈ rest, ∀ kq ∈ rest,
        validParam (pfx ++ kp.1) ≠ kq.2 := fun kp h1 kq h2 =>
      hfresh kp (List.mem_cons_of_mem _ h1) kq
        (List.mem_cons_of_mem _ h2)
    have hh' : ∀ kp ∈ rest,
        alookup (unsafeSetHandler (globalsDelete w param)
          { hfun (key, param) with
            key := validParam (pfx ++ key) }).handlerByParam kp.2 =
          some (hfun kp) := by
      intro kp hkp
      show alookup (aset (adel w.handlerByParam param)
        (validParam (pfx ++ key))
        { hfun (key, param) with
          key := validParam (pfx ++ key) }) kp.2 = some (hfun kp)
      rw [alookup_aset_ne _ _ (Ne.symm (hfresh (key, param)
        (List.mem_cons_self _ _) kp (List.mem_cons_of_mem _ hkp)))]
      rw [alookup_adel_ne _ (fun he => hparam_notin
        (by rw [← he]; exact List.mem_map_of_mem Prod.snd hkp))]
      exact hh kp (List.mem_cons_of_mem _ hkp)
    obtain ⟨w', pbk', hrun, ⟨urls, hlen, hnavs⟩, hpres, hold, hcache,
      hpbk_out, hpbk_in⟩ :=
      ih (unsafeSetHandler (globalsDelete w param)
          { hfun (key, param) with key := validParam (pfx ++ key) })
        (aset pbk key (validParam (pfx ++ key)))
        (updates ++ [(validParam (pfx ++ key),
          parameterize (target key)
            { hfun (key, param) with
              key := validParam (pfx ++ key) })])
        hsnd' hfresh' hh'
    refine ⟨w', pbk', ?_, ?_, ?_, ?_, ?_, ?_, ?_⟩
    · show (match alookup w.handlerByParam param with
        | none => Except.error "missing handler"
        | some handler =>
          updatePrefixLoop target pfx rest
            (unsafeSetHandler (globalsDelete w param)
              { handler with key := validParam (pfx ++ key) })
            (aset pbk key (validParam (pfx ++ key)))
            (updates ++ [(validParam (pfx ++ key),
              parameterize (target key) { handler with
                key := validParam (pfx ++ key) })])) = _
      rw [hlookup]
      refine hrun.trans ?_
      simp [List.append_assoc]
    · refine ⟨uspDelete w.url param :: urls, by simp [hlen], ?_⟩
      rw [hnavs]
      rw [show (unsafeSetHandler (globalsDelete w param)
        { hfun (key, param) with
          key := validParam (pfx ++ key) }).navs =
        w.navs ++ [⟨uspDelete w.url param, .replace⟩] from rfl]
      simp
    · intro q hq
      refine hpres q ?_
      show (uspDelete w.url param).filter (fun p => p.1 == q) = []
      by_cases hqp : q = param
      · subst hqp
        exact uspDelete_filter_self _ _
      · rw [uspDelete_filter_ne _ hqp]
        exact hq
    · intro kp hkp
      rcases List.mem_cons.mp hkp with he | hm
      · subst he
        refine hpres param ?_
        exact uspDelete_filter_self _ _
      · exact hold kp hm
    · intro q hq
      refine hcache q ?_
      show alookup (adel w.cachedByParam param) q = none
      by_cases hqp : q = param
      · subst hqp
        exact alookup_adel_self _ _
      · rw [alookup_adel_ne _ hqp]
        exact hq
    · intro k hk
      rw [List.map_cons] at hk
      have hk1 : k ≠ key := fun he => hk (he ▸ List.mem_cons_self _ _)
      have hk2 : k ∉ rest.map Prod.fst := fun hm =>
        hk (List.mem_cons_of_mem _ hm)
      rw [hpbk_out k hk2, alookup_aset_ne _ _ hk1]
    · intro hnodup kp hkp
      rw [List.map_cons] at hnodup
      rcases List.mem_cons.mp hkp with he | hm
      · subst he
        rw [hpbk_out key (List.nodup_cons.mp hnodup).1]
        exact alookup_aset_self _ _ _
      · exact hpbk_in (List.nodup_cons.mp hnodup).2 kp hm

def cxHandler (k : String) : Handler String String :=
  { resolve := fun i _ _ => i
    key := k
    entries := .single
    debounce := .useGlobal
    previousKeys := none
    history := .push
    deserialize := id
    serialize := id
    encode := id
    decode := id }

def c1World : World String String :=
  { url := [("a_x", "1"), ("a_y", "2")]
    navs := []
    handlerByParam := [("a_x", cxHandler "a_x"), ("a_y", cxHandler "a_y")]
    cachedByParam := []
    pendingDebounce := [] }

def c1Target : String → FieldVal String :=
  fun k => if k = "x" then .scalar "1" else .scalar "2"

/-- C1: counterexample to "a single batched replace-mode navigation
commit … the URL never passes through an intermediate state containing
both sets of keys or neither".  With two bound fields (`x ↦ a_x`,
`y ↦ a_y`) and new prefix `b_`, `updatePrefix` commits THREE
navigations, and the second one's URL is `[]` — it contains NEITHER the
old keys nor the new keys (each old key is removed by its own immediate
`globals.delete` navigation before the single batched write of the new
keys). -/
theorem C1_counterexample :
    ((updatePrefix c1World [("x", "a_x"), ("y", "a_y")] c1Target
        "b_").map (fun r => r.1.navs)).toOption =
      some [⟨[("a_y", "2")], .replace⟩, ⟨[], .replace⟩,
        ⟨[("b_x", "1"), ("b_y", "2")], .replace⟩] := by
  decide

/-- C1 (amended): on a prefix change, `updatePrefix` first removes each
old key via its own immediate replace-mode navigation (one per bound
field, through `globals.delete`), and then issues one final batched
replace-mode commit writing the new keys' current serialized values —
`n + 1` navigations in total, all replace-mode, the last one being the
batched write, with every old key absent from the final URL. -/
theorem C1_amended [Inhabited α] (w : World I α)
    (paramByKey : List (String × String)) (target : String → FieldVal α)
    (pfx : String) (hfun : String × String → Handler I α)
    (hsnd : (paramByKey.map Prod.snd).Nodup)
    (hfresh : ∀ kp ∈ paramByKey, ∀ kq ∈ paramByKey,
      validParam (pfx ++ kp.1) ≠ kq.2)
    (hh : ∀ kp ∈ paramByKey,
      alookup w.handlerByParam kp.2 = some (hfun kp)) :
    ∃ (w1 w' : World I α) (pbk' : List (String × String))
      (upd : List (String × StrVal)),
      upd = paramByKey.map (fun kp => (validParam (pfx ++ kp.1),
        parameterize (target kp.1)
          { hfun kp with key := validParam (pfx ++ kp.1) })) ∧
      updatePrefixLoop target pfx paramByKey w paramByKey [] =
        .ok (w1, pbk', upd) ∧
      updatePrefix w paramByKey target pfx = .ok (w', pbk') ∧
      w' = trySetURLParams w1 upd .replace ∧
      w'.navs.length = w.navs.length + paramByKey.length + 1 ∧
      (∀ nav ∈ w'.navs.drop w.navs.length, nav.behavior = .replace) ∧
      w'.navs.getLast? = some ⟨w'.url, .replace⟩ ∧
      (∀ kp ∈ paramByKey,
        w'.url.filter (fun p => p.1 == kp.2) = []) := by
  obtain ⟨w1, pbk', hrun, ⟨urls, hlen, hnavs⟩, hpres, hold, hcache,
    hout, hin⟩ :=
    updatePrefixLoop_spec target pfx hfun paramByKey w paramByKey []
      hsnd hfresh hh
  have hrun' : updatePrefixLoop target pfx paramByKey w paramByKey [] =
      .ok (w1, pbk', paramByKey.map (fun kp =>
        (validParam (pfx ++ kp.1), parameterize (target kp.1)
          { hfun kp with key := validParam (pfx ++ kp.1) }))) :=
    hrun.trans (by simp)
  refine ⟨w1, trySetURLParams w1 (paramByKey.map (fun kp =>
      (validParam (pfx ++ kp.1), parameterize (target kp.1)
        { hfun kp with key := validParam (pfx ++ kp.1) }))) .replace,
    pbk', _, rfl, hrun', ?_, rfl, ?_, ?_, ?_, ?_⟩
  · unfold updatePrefix
    rw [hrun']
  all_goals
    have hframe := tspsFold_frame (paramByKey.map (fun kp =>
      (validParam (pfx ++ kp.1), parameterize (target kp.1)
        { hfun kp with key := validParam (pfx ++ kp.1) }))) (w1, [])
  all_goals
    have hnavfin : (trySetURLParams w1 (paramByKey.map (fun kp =>
        (validParam (pfx ++ kp.1), parameterize (target kp.1)
          { hfun kp with key := validParam (pfx ++ kp.1) })))
          .replace).navs =
        w1.navs ++ [⟨(trySetURLParams w1 (paramByKey.map (fun kp =>
          (validParam (pfx ++ kp.1), parameterize (target kp.1)
            { hfun kp with
              key := validParam (pfx ++ kp.1) }))) .replace).url,
          .replace⟩] := by
      show ((paramByKey.map _).foldl tspsStep (w1, [])).1.navs ++ _ = _
      rw [hframe.1]
      rfl
  · rw [hnavfin, hnavs]
    simp [hlen]
    omega
  · intro nav hnav
    rw [hnavfin, hnavs, List.append_assoc, List.drop_left] at hnav
    rcases List.mem_append.mp hnav with hm | hm
    · obtain ⟨u, _, he⟩ := List.mem_map.mp hm
      rw [← he]
    · rw [List.mem_singleton.mp hm]
  · rw [hnavfin]
    exact List.getLast?_concat _
  · intro kp hkp
    show (((paramByKey.map _).foldl tspsStep (w1, [])).2.foldl
      (fun u pv => modifySearchParam pv.1 pv.2 u)
      ((paramByKey.map _).foldl tspsStep (w1, [])).1.url).filter
        (fun p => p.1 == kp.2) = []
    refine batch_fold_filter _ kp.2 ?_ _ ?_
    · intro pv hpv
      rcases hframe.2.2.2.2 pv hpv with hm | hm
      · simp at hm
      · rw [List.map_map] at hm
        obtain ⟨kq2, hkq2, he2⟩ := List.mem_map.mp hm
        have he3 : validParam (pfx ++ kq2.1) = pv.1 := he2
        intro hcontra
        exact hfresh kq2 hkq2 kp hkp (he3.trans hcontra)
    · rw [hframe.2.1]
      exact hold kp hkp

/-- C1 (amended) witness: the two-field instance, hypotheses
discharged concretely. -/
theorem C1_amended_witness :
    ((([("x", "a_x"), ("y", "a_y")] : List (String × String)).map
        Prod.snd).Nodup ∧
      (∀ kp ∈ ([("x", "a_x"), ("y", "a_y")] : List (String × String)),
        ∀ kq ∈ ([("x", "a_x"), ("y", "a_y")] : List (String × String)),
          validParam ("b_" ++ kp.1) ≠ kq.2)) ∧
    ∃ (w1 w' : World String String) (pbk' : List (String × String))
      (upd : List (String × StrVal)),
      upd = ([("x", "a_x"), ("y", "a_y")] :
          List (String × String)).map (fun kp =>
        (validParam ("b_" ++ kp.1), parameterize (c1Target kp.1)
          { cxHandler kp.2 with key := validParam ("b_" ++ kp.1) })) ∧
      updatePrefixLoop c1Target "b_" [("x", "a_x"), ("y", "a_y")]
        c1World [("x", "a_x"), ("y", "a_y")] [] = .ok (w1, pbk', upd) ∧
      updatePrefix c1World [("x", "a_x"), ("y", "a_y")] c1Target "b_" =
        .ok (w', pbk') ∧
      w' = trySetURLParams w1 upd .replace ∧
      w'.navs.length = c1World.navs.length +
        ([("x", "a_x"), ("y", "a_y")] :
          List (String × String)).length + 1 ∧
      (∀ nav ∈ w'.navs.drop c1World.navs.length,
        nav.behavior = .replace) ∧
      w'.navs.getLast? = some ⟨w'.url, .replace⟩ ∧
      (∀ kp ∈ ([("x", "a_x"), ("y", "a_y")] : List (String × String)),
        w'.url.filter (fun p => p.1 == kp.2) = []) := by
  refine ⟨⟨by decide, by decide⟩, ?_⟩
  exact C1_amended c1World [("x", "a_x"), ("y", "a_y")] c1Target "b_"
    (fun kp => cxHandler kp.2) (by decide) (by decide) (by
      intro kp hkp
      rcases List.mem_cons.mp hkp with he | hkp'
      · subst he
        rfl
      rcases List.mem_cons.mp hkp' with he | hkp''
      · subst he
        rfl
      · exact absurd hkp'' (List.not_mem_nil _))

def c3Dflt : DefaultFns String String :=
  { encode := id, decode := id, deserialize := id, serialize := id }

def c3Verbose : VerboseParameterHandler String String :=
  { key := some "k", resolve := fun i _ _ => i }

def c3Opts : Options String String :=
  { prefixOpt := some (.val "a_") }

def c3World : World String String :=
  { url := []
    navs := []
    handlerByParam := [("a_k",
      verbosify c3Dflt (.verbose c3Verbose) "f" (some c3Opts))]
    cachedByParam := []
    pendingDebounce := [] }

/-- C3: counterexample to "the effective URL parameter key equals
escape(prefix + (explicitKey ?? fieldName)) … when the key is
recomputed on a dynamic prefix change; in particular a handler's
explicit key option is preserved across a prefix change".  At binding
time the field `f` with explicit key `"k"` and prefix `a_` gets key
`escape("a_" + "k") = "a_k"`; but after a prefix change to `b_`,
`updatePrefix` recomputes the key from the FIELD NAME, recording
`"b_f"`, not the claimed `escape("b_" + "k") = "b_k"` — the explicit
key is dropped. -/
theorem C3_counterexample :
    (verbosify c3Dflt (.verbose c3Verbose) "f" (some c3Opts)).key =
      validParam ("a_" ++ "k") ∧
    validParam ("a_" ++ "k") = "a_k" ∧
    ((updatePrefix c3World [("f", "a_k")] (fun _ => .scalar "1")
        "b_").map (fun r => alookup r.2 "f")).toOption =
      some (some "b_f") ∧
    validParam ("b_" ++ "k") = "b_k" ∧
    ("b_f" : String) ≠ "b_k" := by
  exact ⟨by decide, by decide, by decide, by decide, by decide⟩

/-- C3 (amended): at binding time the effective key is
`escape(prefix + (explicitKey ?? fieldName))`; on a dynamic prefix
change, however, `updatePrefix` recomputes every key as
`escape(newPrefix + fieldName)`, ignoring any explicit key. -/
theorem C3_amended [Inhabited α] (w : World I α)
    (paramByKey : List (String × String)) (target : String → FieldVal α)
    (pfx : String) (hfun : String × String → Handler I α)
    (hsnd : (paramByKey.map Prod.snd).Nodup)
    (hfst : (paramByKey.map Prod.fst).Nodup)
    (hfresh : ∀ kp ∈ paramByKey, ∀ kq ∈ paramByKey,
      validParam (pfx ++ kp.1) ≠ kq.2)
    (hh : ∀ kp ∈ paramByKey,
      alookup w.handlerByParam kp.2 = some (hfun kp)) :
    (∀ (dflt : DefaultFns I α) (h : VerboseParameterHandler I α)
        (key : String) (options : Option (Options I α)),
      (verbosify dflt (.verbose h) key options).key =
        validParam (resolveMG (options.bind (·.prefixOpt)) "" ++
          (h.key.getD key))) ∧
    (∀ (dflt : DefaultFns I α) (r : I → String → Option Nat → α)
        (key : String) (options : Option (Options I α)),
      (verbosify dflt (.fn r) key options).key =
        validParam (resolveMG (options.bind (·.prefixOpt)) "" ++ key)) ∧
    ∃ (w' : World I α) (pbk' : List (String × String)),
      updatePrefix w paramByKey target pfx = .ok (w', pbk') ∧
      ∀ kp ∈ paramByKey,
        alookup pbk' kp.1 = some (validParam (pfx ++ kp.1)) := by
  refine ⟨fun _ _ _ _ => rfl, fun _ _ _ _ => rfl, ?_⟩
  obtain ⟨w1, pbk', hrun, _, _, _, _, _, hin⟩ :=
    updatePrefixLoop_spec target pfx hfun paramByKey w paramByKey []
      hsnd hfresh hh
  refine ⟨trySetURLParams w1 ([] ++ paramByKey.map (fun kp =>
      (validParam (pfx ++ kp.1), parameterize (target kp.1)
        { hfun kp with key := validParam (pfx ++ kp.1) }))) .replace,
    pbk', ?_, hin hfst⟩
  unfold updatePrefix
  rw [hrun]

/-- C3 (amended) witness: the explicit-key instance with prefix change
`a_` to `b_`. -/
theorem C3_amended_witness :
    ((([("f", "a_k")] : List (String × String)).map Prod.snd).Nodup ∧
      (([("f", "a_k")] : List (String × String)).map Prod.fst).Nodup ∧
      (∀ kp ∈ ([("f", "a_k")] : List (String × String)),
        ∀ kq ∈ ([("f", "a_k")] : List (String × String)),
          validParam ("b_" ++ kp.1) ≠ kq.2)) ∧
    ((∀ (dflt : DefaultFns String String)
        (h : VerboseParameterHandler String String) (key : String)
        (options : Option (Options String String)),
      (verbosify dflt (.verbose h) key options).key =
        validParam (resolveMG (options.bind (·.prefixOpt)) "" ++
          (h.key.getD key))) ∧
    (∀ (dflt : DefaultFns String String)
        (r : String → String → Option Nat → String) (key : String)
        (options : Option (Options String String)),
      (verbosify dflt (.fn r) key options).key =
        validParam (resolveMG (options.bind (·.prefixOpt)) "" ++ key)) ∧
    ∃ (w' : World String String) (pbk' : List (String × String)),
      updatePrefix c3World [("f", "a_k")] (fun _ => .scalar "1") "b_" =
        .ok (w', pbk') ∧
      ∀ kp ∈ ([("f", "a_k")] : List (String × String)),
        alookup pbk' kp.1 = some (validParam ("b_" ++ kp.1))) := by
  refine ⟨⟨by decide, by decide, by decide⟩, ?_⟩
  exact C3_amended c3World [("f", "a_k")] (fun _ => .scalar "1") "b_"
    (fun _ => verbosify c3Dflt (.verbose c3Verbose) "f" (some c3Opts))
    (by decide) (by decide) (by decide) (by
      intro kp hkp
      rcases List.mem_cons.mp hkp with he | hkp'
      · subst he
        rfl
      · exact absurd hkp' (List.not_mem_nil _))

theorem diffAssign_self [Inhabited α] (h : Handler I α) (param : String) :
    ∀ (vs pre : List String) (arrv : List α) (i : Nat),
      pre.drop i = vs → diffAssign h param vs pre arrv i = arrv := by
  intro vs
  induction vs with
  | nil => intro pre arrv i _; rfl
  | cons v vs' ih =>
    intro pre arrv i hdrop
    have hget : pre.get? i = some v := by
      have h0 : (pre.drop i).get? 0 = pre.get? i := by
        rw [List.get?_drop]
        simp
      rw [hdrop] at h0
      exact h0.symm
    show diffAssign h param vs' pre
      (if pre.get? i = some v then arrv
       else jsSet arrv i (evaluate h v param (some i))) (i + 1) = arrv
    rw [if_pos hget]
    refine ih pre arrv (i + 1) ?_
    rw [← List.tail_drop, hdrop]
    rfl

theorem trySetFromURL_hit_multi [Inhabited α] (w : World I α)
    (state : URLState) (arrv : List α) (param : String)
    (handler : Handler I α) (current : StrVal) (values : List String)
    (hstate : stateGet state param = some current)
    (hvals : (match current with | .many l => l | .one s => [s]) =
      values)
    (hcache : cached w param = some (cachify param values))
    (hreg : alookup w.handlerByParam param = some handler)
    (hmulti : supportsMultiple handler = true) :
    trySetFromURL w state (.arr arrv) param none true =
      .ok (w, .arr arrv) := by
  have hcache2 : alookup w.cachedByParam param =
      some (cachify param values) := hcache
  have hw : cacheW w param (cachify param values) = w := by
    unfold cacheW
    rw [aset_of_lookup_eq hcache2]
  have hda : diffAssign handler param values values arrv 0 = arrv :=
    diffAssign_self handler param values values arrv 0 rfl
  have hsp : spliceTrunc arrv values.length
      ((values.length : Int) - values.length) = arrv := by
    unfold spliceTrunc
    rw [if_pos (by omega)]
  cases current with
  | one s =>
    have hv2 : values = [s] := hvals.symm
    subst hv2
    simp only [trySetFromURL, hstate, Option.none_orElse, hreg,
      isManyVal, hmulti, hcache, Option.getD_some, uspGetAll_cachify,
      hda, hw, hsp, Bool.false_eq_true, false_and, not_true, false_or,
      if_true, if_false, List.length_singleton]
    have hsp0 : spliceTrunc arrv 1 (0 : Int) = arrv := by
      unfold spliceTrunc
      rw [if_pos (by omega)]
    simp [hsp, hsp0, hda, hw]
  | many l =>
    have hv2 : values = l := hvals.symm
    subst hv2
    simp only [trySetFromURL, hstate, Option.none_orElse, hreg,
      isManyVal, hmulti, hcache, Option.getD_some, uspGetAll_cachify,
      hda, hw, hsp, true_and, not_true, true_or, if_true]
    simp [hsp, hda, hw]

theorem trySetFromURL_hit_single [Inhabited α] (w : World I α)
    (state : URLState) (target : FieldVal α) (param s : String)
    (handler : Handler I α)
    (hstate : stateGet state param = some (.one s))
    (hcache : cached w param = some (cachify param [s]))
    (hreg : alookup w.handlerByParam param = some handler)
    (hsingle : supportsMultiple handler = false) :
    trySetFromURL w state target param none true = .ok (w, target) := by
  have hget : uspGet (uspParse ((cached w param).getD "")) param =
      some s := by
    rw [hcache]
    exact uspGet_cachify param s []
  simp only [trySetFromURL, hstate, Option.none_orElse, hreg,
    isManyVal, hsingle, hget, Bool.false_eq_true, false_and, false_or,
    if_true, if_false]

/-- C4: a field write that updates the URL never re-resolves the same
binding from its own navigation: after `trySetURLParam` caches the
reconstructed query string and commits (exactly one navigation), the
follow-up `trySetFromURL` on the new URL's snapshot finds the snapshot
equal to the write cache and returns world and field value unchanged
(single-entry handlers take the equal-string early return; multiple-
entry handlers re-assign no element and splice nothing). -/
theorem C4_no_self_reassign [Inhabited α] (w : World I α)
    (param : String) (handler : Handler I α) (v : StrVal)
    (b : UpdateHistoryBehavior) (target : FieldVal α)
    (hreg : alookup w.handlerByParam param = some handler)
    (hmiss : ¬ cached w param = some (cachifyVal param v))
    (hshape :
      (supportsMultiple handler = false ∧ ∃ s, v = .one s) ∨
      (supportsMultiple handler = true ∧ (∃ l, target = .arr l) ∧
        ((∃ s, v = .one s) ∨ ∃ a l, v = .many (a :: l)))) :
    (trySetURLParam w param v b).navs.length = w.navs.length + 1 ∧
    trySetFromURL (trySetURLParam w param v b)
        (getURLState (trySetURLParam w param v b).url) target param
        none true =
      .ok (trySetURLParam w param v b, target) := by
  have h1 : trySetURLParam w param v b =
      trigger (cacheW w param (cachifyVal param v)) param (some v) b := by
    unfold trySetURLParam
    rw [if_neg hmiss]
  have hreg1 : alookup (trigger (cacheW w param (cachifyVal param v))
      param (some v) b).handlerByParam param = some handler := hreg
  have hcache1 : cached (trigger (cacheW w param (cachifyVal param v))
      param (some v) b) param = some (cachifyVal param v) := by
    show alookup (aset w.cachedByParam param (cachifyVal param v))
      param = _
    exact alookup_aset_self _ _ _
  refine ⟨by rw [h1]; show (w.navs ++ [_]).length = _; simp, ?_⟩
  rw [h1]
  rcases hshape with ⟨hsingle, s, rfl⟩ |
    ⟨hmulti, ⟨arrv, rfl⟩, ⟨s, rfl⟩ | ⟨a, l, rfl⟩⟩
  · refine trySetFromURL_hit_single _ _ _ _ s handler ?_ hcache1 hreg1
      hsingle
    rw [getURLState_spec]
    rw [show (trigger (cacheW w param (cachifyVal param (.one s)))
      param (some (.one s)) b).url = uspSet w.url param s from rfl]
    rw [uspGetAll_uspSet]
    rfl
  · refine trySetFromURL_hit_multi _ _ _ _ handler (.one s) [s] ?_ rfl
      hcache1 hreg1 hmulti
    rw [getURLState_spec]
    rw [show (trigger (cacheW w param (cachifyVal param (.one s)))
      param (some (.one s)) b).url = uspSet w.url param s from rfl]
    rw [uspGetAll_uspSet]
    rfl
  · have hall : uspGetAll (trigger (cacheW w param
        (cachifyVal param (.many (a :: l)))) param
        (some (.many (a :: l))) b).url param = a :: l := by
      rw [show (trigger (cacheW w param (cachifyVal param
        (.many (a :: l)))) param (some (.many (a :: l))) b).url =
        modifySearchParam param (some (.many (a :: l))) w.url from rfl]
      exact uspGetAll_modifyMany _ _ _
    cases l with
    | nil =>
      refine trySetFromURL_hit_multi _ _ _ _ handler (.one a) [a] ?_ rfl
        hcache1 hreg1 hmulti
      rw [getURLState_spec, hall]
      rfl
    | cons c cs =>
      refine trySetFromURL_hit_multi _ _ _ _ handler
        (.many (a :: c :: cs)) (a :: c :: cs) ?_ rfl hcache1 hreg1
        hmulti
      rw [getURLState_spec, hall]
      rfl

def c4World : World String String :=
  { url := []
    navs := []
    handlerByParam := [("p", cxHandler "p")]
    cachedByParam := []
    pendingDebounce := [] }

/-- C4 witness: a concrete genuine write followed by the snapshot
handling of its own navigation. -/
theorem C4_witness :
    (¬ cached c4World "p" = some (cachifyVal "p" (.one "1"))) ∧
    supportsMultiple (cxHandler "p") = false ∧
    ((trySetURLParam c4World "p" (.one "1") .push).navs.length =
      c4World.navs.length + 1 ∧
    trySetFromURL (trySetURLParam c4World "p" (.one "1") .push)
        (getURLState (trySetURLParam c4World "p" (.one "1") .push).url)
        (.scalar "t") "p" none true =
      .ok (trySetURLParam c4World "p" (.one "1") .push,
        .scalar "t")) := by
  exact ⟨by decide, by decide, C4_no_self_reassign c4World "p"
    (cxHandler "p") (.one "1") .push (.scalar "t") rfl (by decide)
    (.inl ⟨by decide, "1", rfl⟩)⟩

theorem tphkLoop_spec [Inhabited α] (state : URLState) (key : String)
    (handler : Handler I α) :
    ∀ (pks : List PreviousKey) (w : World I α) (t : FieldVal α)
      (pushes repls : List String) (w' : World I α) (t' : FieldVal α)
      (pushes' repls' : List String),
      tphkLoop state key handler pks w t pushes repls =
        .ok (w', t', pushes', repls') →
      w'.navs = w.navs ∧ w'.url = w.url ∧
      w'.handlerByParam = w.handlerByParam ∧
      w'.pendingDebounce = w.pendingDebounce ∧
      pushes' = pushes ++ (pks.filter (fun pk => pk.remove.getD true &&
        decide (pk.behavior.getD .replace = .push))).map
          (fun pk => validParam pk.fullname) ∧
      repls' = repls ++ (pks.filter (fun pk => pk.remove.getD true &&
        !decide (pk.behavior.getD .replace = .push))).map
          (fun pk => validParam pk.fullname) := by
  intro pks
  induction pks with
  | nil =>
    intro w t pushes repls w' t' pushes' repls' h
    unfold tphkLoop at h
    simp only [Except.ok.injEq, Prod.mk.injEq] at h
    obtain ⟨h1, h2, h3, h4⟩ := h
    subst h1
    subst h3
    subst h4
    exact ⟨rfl, rfl, rfl, rfl, by simp, by simp⟩
  | cons pk pks ih =>
    intro w t pushes repls w' t' pushes' repls' h
    unfold tphkLoop at h
    split at h
    · exact absurd h (by simp)
    · rename_i w2 t2 heq
      have hframe : w2.navs = w.navs ∧ w2.url = w.url ∧
          w2.handlerByParam = w.handlerByParam ∧
          w2.pendingDebounce = w.pendingDebounce := by
        split at heq
        · exact trySetFromURL_frame heq
        · simp only [Except.ok.injEq, Prod.mk.injEq] at heq
          obtain ⟨h1, _⟩ := heq
          subst h1
          exact ⟨rfl, rfl, rfl, rfl⟩
      by_cases hrem : pk.remove.getD true = true
      · by_cases hbeh : pk.behavior.getD .replace = .push
        · rw [if_pos hrem, if_pos hbeh] at h
          obtain ⟨g1, g2, g3, g4, g5, g6⟩ := ih w2 t2 _ _ _ _ _ _ h
          refine ⟨g1.trans hframe.1, g2.trans hframe.2.1,
            g3.trans hframe.2.2.1, g4.trans hframe.2.2.2, ?_, ?_⟩
          · rw [g5, List.filter_cons, if_pos (by simp [hrem, hbeh])]
            simp
          · rw [g6, List.filter_cons, if_neg (by simp [hrem, hbeh])]
        · rw [if_pos hrem, if_neg hbeh] at h
          obtain ⟨g1, g2, g3, g4, g5, g6⟩ := ih w2 t2 _ _ _ _ _ _ h
          refine ⟨g1.trans hframe.1, g2.trans hframe.2.1,
            g3.trans hframe.2.2.1, g4.trans hframe.2.2.2, ?_, ?_⟩
          · rw [g5, List.filter_cons, if_neg (by simp [hrem, hbeh])]
          · rw [g6, List.filter_cons, if_pos (by simp [hrem, hbeh])]
            simp
      · rw [if_neg hrem] at h
        obtain ⟨g1, g2, g3, g4, g5, g6⟩ := ih w2 t2 _ _ _ _ _ _ h
        have hrem' : pk.remove.getD true = false :=
          Bool.not_eq_true _ ▸ (by simpa using hrem)
        refine ⟨g1.trans hframe.1, g2.trans hframe.2.1,
          g3.trans hframe.2.2.1, g4.trans hframe.2.2.2, ?_, ?_⟩
        · rw [g5, List.filter_cons, if_neg (by simp [hrem'])]
        · rw [g6, List.filter_cons, if_neg (by simp [hrem'])]

theorem deleteFold_preserves (ps : List String) :
    ∀ (u : List (String × String)) (p : String),
      u.filter (fun q => q.1 == p) = [] →
      ((ps.map (fun x => (x, (none : Option StrVal)))).foldl
        (fun u pv => modifySearchParam pv.1 pv.2 u) u).filter
        (fun q => q.1 == p) = [] := by
  induction ps with
  | nil => exact fun u p h => h
  | cons q0 qs ih =>
    intro u p h
    rw [List.map_cons, List.foldl_cons]
    refine ih _ p ?_
    show (uspDelete u q0).filter (fun q => q.1 == p) = []
    by_cases hpq : p = q0
    · subst hpq
      exact uspDelete_filter_self _ _
    · rw [uspDelete_filter_ne _ hpq]
      exact h

theorem deleteFold_mem (ps : List String) :
    ∀ (u : List (String × String)) (p : String), p ∈ ps →
      ((ps.map (fun x => (x, (none : Option StrVal)))).foldl
        (fun u pv => modifySearchParam pv.1 pv.2 u) u).filter
        (fun q => q.1 == p) = [] := by
  induction ps with
  | nil =>
    intro u p h
    exact absurd h (List.not_mem_nil _)
  | cons q0 qs ih =>
    intro u p h
    rw [List.map_cons, List.foldl_cons]
    rcases List.mem_cons.mp h with he | hm
    · subst he
      refine deleteFold_preserves qs _ p ?_
      exact uspDelete_filter_self _ _
    · exact ih _ p hm

/-- C7: during legacy-key migration, removals are grouped by requested
history mode into at most two batched navigations — one push-mode batch
clearing every push-removal key, then one replace-mode batch clearing
every replace-removal key, each batch present only when nonempty (never
one navigation per legacy key); and (second conjunct) a legacy key with
apply enabled hydrates the field from that key's current URL value
through the same handler's decode/deserialize/resolve pipeline, without
touching the write cache. -/
theorem C7_legacy_migration [Inhabited α] (w : World I α) (key : String)
    (handler : Handler I α) (state : URLState) (target : FieldVal α)
    (pks : List PreviousKey) (w' : World I α) (t' : FieldVal α)
    (hpk : handler.previousKeys = some pks)
    (hrun : tryProcessHistoricalKeys w key handler state target =
      .ok (w', t')) :
    (∃ u1 u2 : List (String × String),
      w'.navs = w.navs ++
        (if ((pks.filter (fun pk => pk.remove.getD true &&
            decide (pk.behavior.getD .replace = .push))).map
            (fun pk => validParam pk.fullname)).isEmpty then []
         else [⟨u1, .push⟩]) ++
        (if ((pks.filter (fun pk => pk.remove.getD true &&
            !decide (pk.behavior.getD .replace = .push))).map
            (fun pk => validParam pk.fullname)).isEmpty then []
         else [⟨u2, .replace⟩]) ∧
      (∀ pk ∈ pks, pk.remove.getD true = true →
        pk.behavior.getD .replace = .push →
        u1.filter (fun q => q.1 == validParam pk.fullname) = []) ∧
      (∀ pk ∈ pks, pk.remove.getD true = true →
        ¬ pk.behavior.getD .replace = .push →
        u2.filter (fun q => q.1 == validParam pk.fullname) = [])) ∧
    (∀ (w2 : World I α) (handler2 : Handler I α) (pk : PreviousKey)
        (s : String) (target2 : FieldVal α) (w2' : World I α)
        (t2' : FieldVal α),
      handler2.previousKeys = some [pk] →
      pk.apply.getD true = true →
      stateGet state (validParam pk.fullname) = some (.one s) →
      supportsMultiple handler2 = false →
      ¬ uspGet (uspParse ((cached w2 (validParam pk.fullname)).getD ""))
        (validParam pk.fullname) = some s →
      tryProcessHistoricalKeys w2 key handler2 state target2 =
        .ok (w2', t2') →
      t2' = .scalar (evaluate handler2 s (validParam pk.fullname)
        none) ∧
      w2'.cachedByParam = w2.cachedByParam) := by
  constructor
  · simp only [tryProcessHistoricalKeys, hpk] at hrun
    split at hrun
    · exact absurd hrun (by simp)
    · rename_i w1 t1 pushes repls hloop
      obtain ⟨hnavs1, hurl1, _, _, hp, hr⟩ :=
        tphkLoop_spec state key handler pks w target [] [] w1 t1
          pushes repls hloop
      simp only [List.nil_append] at hp hr
      simp only [Except.ok.injEq, Prod.mk.injEq] at hrun
      obtain ⟨hw', ht'⟩ := hrun
      subst hp
      subst hr
      by_cases hPe : ((pks.filter (fun pk => pk.remove.getD true &&
          decide (pk.behavior.getD .replace = .push))).map
          (fun pk => validParam pk.fullname)).isEmpty = true
      · by_cases hRe : ((pks.filter (fun pk => pk.remove.getD true &&
            !decide (pk.behavior.getD .replace = .push))).map
            (fun pk => validParam pk.fullname)).isEmpty = true
        · rw [if_pos hRe, if_pos hPe] at hw'
          subst hw'
          refine ⟨[], [], ?_, by simp, by simp⟩
          rw [if_pos hPe, if_pos hRe, hnavs1]
          simp
        · rw [if_neg hRe, if_pos hPe] at hw'
          subst hw'
          refine ⟨[], ((((pks.filter (fun pk => pk.remove.getD true &&
              !decide (pk.behavior.getD .replace = .push))).map
              (fun pk => validParam pk.fullname)).map (fun p => (p, (none : Option StrVal)))).foldl
            (fun u pv => modifySearchParam pv.1 pv.2 u) w1.url), ?_, by simp, ?_⟩
          · rw [if_pos hPe, if_neg hRe]
            show w1.navs ++ [_] = _
            rw [hnavs1, hurl1]
            simp
          · intro pk hpkm hrm hbh
            refine deleteFold_mem _ _ _ ?_
            exact List.mem_map_of_mem _ (List.mem_filter.mpr
              ⟨hpkm, by simp [hrm, hbh]⟩)
      · by_cases hRe : ((pks.filter (fun pk => pk.remove.getD true &&
            !decide (pk.behavior.getD .replace = .push))).map
            (fun pk => validParam pk.fullname)).isEmpty = true
        · rw [if_pos hRe, if_neg hPe] at hw'
          subst hw'
          refine ⟨((((pks.filter (fun pk => pk.remove.getD true &&
              decide (pk.behavior.getD .replace = .push))).map
              (fun pk => validParam pk.fullname)).map (fun p => (p, (none : Option StrVal)))).foldl
            (fun u pv => modifySearchParam pv.1 pv.2 u) w1.url), [], ?_, ?_, by simp⟩
          · rw [if_neg hPe, if_pos hRe]
            show w1.navs ++ [_] = _
            rw [hnavs1, hurl1]
            simp
          · intro pk hpkm hrm hbh
            refine deleteFold_mem _ _ _ ?_
            exact List.mem_map_of_mem _ (List.mem_filter.mpr
              ⟨hpkm, by simp [hrm, hbh]⟩)
        · rw [if_neg hRe, if_neg hPe] at hw'
          subst hw'
          refine ⟨((((pks.filter (fun pk => pk.remove.getD true &&
              decide (pk.behavior.getD .replace = .push))).map
              (fun pk => validParam pk.fullname)).map (fun p => (p, (none : Option StrVal)))).foldl
            (fun u pv => modifySearchParam pv.1 pv.2 u) w1.url), ((((pks.filter (fun pk => pk.remove.getD true &&
              !decide (pk.behavior.getD .replace = .push))).map
              (fun pk => validParam pk.fullname)).map (fun p => (p, (none : Option StrVal)))).foldl
            (fun u pv => modifySearchParam pv.1 pv.2 u) (batchTrigger w1 (((pks.filter (fun pk => pk.remove.getD true &&
              decide (pk.behavior.getD .replace = .push))).map
              (fun pk => validParam pk.fullname)).map (fun p => (p, (none : Option StrVal)))) .push).url), ?_, ?_, ?_⟩
          · rw [if_neg hPe, if_neg hRe]
            show (w1.navs ++ [_]) ++ [_] = _
            rw [hnavs1]
          · intro pk hpkm hrm hbh
            refine deleteFold_mem _ _ _ ?_
            exact List.mem_map_of_mem _ (List.mem_filter.mpr
              ⟨hpkm, by simp [hrm, hbh]⟩)
          · intro pk hpkm hrm hbh
            refine deleteFold_mem _ _ _ ?_
            exact List.mem_map_of_mem _ (List.mem_filter.mpr
              ⟨hpkm, by simp [hrm, hbh]⟩)
  · intro w2 handler2 pk s target2 w2' t2' hpk2 happ hst hsm hne hrun2
    have hts : trySetFromURL w2 state target2 (validParam pk.fullname)
        (some handler2) false =
        .ok (w2, .scalar (evaluate handler2 s (validParam pk.fullname)
          none)) := by
      simp only [trySetFromURL, hst, Option.some_orElse, isManyVal,
        hsm, Bool.false_eq_true, false_and, false_or, if_false,
        if_neg hne]
    simp only [tryProcessHistoricalKeys, hpk2] at hrun2
    by_cases hrem : pk.remove.getD true = true
    · by_cases hbeh : pk.behavior.getD .replace = .push
      · simp only [tphkLoop, if_pos happ, hts, if_pos hrem,
          if_pos hbeh, List.isEmpty_cons, List.isEmpty_nil,
          Bool.false_eq_true, if_false, if_true,
          Except.ok.injEq, Prod.mk.injEq] at hrun2
        obtain ⟨hw, ht⟩ := hrun2
        exact ⟨ht.symm, by rw [← hw]; try simp [batchTrigger, commit]⟩
      · simp only [tphkLoop, if_pos happ, hts, if_pos hrem,
          if_neg hbeh, List.isEmpty_cons, List.isEmpty_nil,
          Bool.false_eq_true, if_false, if_true,
          Except.ok.injEq, Prod.mk.injEq] at hrun2
        obtain ⟨hw, ht⟩ := hrun2
        exact ⟨ht.symm, by rw [← hw]; try simp [batchTrigger, commit]⟩
    · simp only [tphkLoop, if_pos happ, hts, if_neg hrem,
        List.isEmpty_nil, if_true, Except.ok.injEq,
        Prod.mk.injEq] at hrun2
      obtain ⟨hw, ht⟩ := hrun2
      exact ⟨ht.symm, by rw [← hw]; try simp [batchTrigger, commit]⟩

def c7pk1 : PreviousKey :=
  { fullname := "old1", remove := some true, apply := some false,
    behavior := some .push }

def c7pk2 : PreviousKey :=
  { fullname := "old2", remove := some true, apply := some false,
    behavior := none }

def c7Handler : Handler String String :=
  { cxHandler "k" with previousKeys := some [c7pk1, c7pk2] }

def c7World : World String String :=
  { url := [("old1", "1"), ("old2", "2"), ("keep", "3")]
    navs := []
    handlerByParam := [("k", c7Handler)]
    cachedByParam := []
    pendingDebounce := [] }

def c7State : URLState :=
  [("old1", .one "1"), ("old2", .one "2"), ("keep", .one "3")]

/-- C7 witness: one push-removal legacy key and one replace-removal
legacy key, batched into exactly two navigations. -/
theorem C7_witness :
    (c7Handler.previousKeys = some [c7pk1, c7pk2] ∧
     tryProcessHistoricalKeys c7World "k" c7Handler c7State
        (.scalar "t" : FieldVal String) =
       .ok ({ c7World with
          url := [("keep", "3")]
          navs := [⟨[("old2", "2"), ("keep", "3")], .push⟩,
            ⟨[("keep", "3")], .replace⟩] }, .scalar "t")) ∧
    ((∃ u1 u2 : List (String × String),
      ({ c7World with
          url := [("keep", "3")]
          navs := [⟨[("old2", "2"), ("keep", "3")], .push⟩,
            ⟨[("keep", "3")], .replace⟩] } :
        World String String).navs = c7World.navs ++
        (if (([c7pk1, c7pk2].filter (fun pk => pk.remove.getD true &&
            decide (pk.behavior.getD .replace = .push))).map
            (fun pk => validParam pk.fullname)).isEmpty then []
         else [⟨u1, .push⟩]) ++
        (if (([c7pk1, c7pk2].filter (fun pk => pk.remove.getD true &&
            !decide (pk.behavior.getD .replace = .push))).map
            (fun pk => validParam pk.fullname)).isEmpty then []
         else [⟨u2, .replace⟩]) ∧
      (∀ pk ∈ [c7pk1, c7pk2], pk.remove.getD true = true →
        pk.behavior.getD .replace = .push →
        u1.filter (fun q => q.1 == validParam pk.fullname) = []) ∧
      (∀ pk ∈ [c7pk1, c7pk2], pk.remove.getD true = true →
        ¬ pk.behavior.getD .replace = .push →
        u2.filter (fun q => q.1 == validParam pk.fullname) = [])) ∧
    (∀ (w2 : World String String) (handler2 : Handler String String)
        (pk : PreviousKey) (s : String) (target2 : FieldVal String)
        (w2' : World String String) (t2' : FieldVal String),
      handler2.previousKeys = some [pk] →
      pk.apply.getD true = true →
      stateGet c7State (validParam pk.fullname) = some (.one s) →
      supportsMultiple handler2 = false →
      ¬ uspGet (uspParse ((cached w2 (validParam pk.fullname)).getD ""))
        (validParam pk.fullname) = some s →
      tryProcessHistoricalKeys w2 "k" handler2 c7State target2 =
        .ok (w2', t2') →
      t2' = .scalar (evaluate handler2 s (validParam pk.fullname)
        none) ∧
      w2'.cachedByParam = w2.cachedByParam)) := by
  refine ⟨⟨rfl, rfl⟩, ?_⟩
  exact C7_legacy_migration c7World "k" c7Handler c7State (.scalar "t")
    [c7pk1, c7pk2] _ _ rfl rfl

end SUP
